import Mathlib

/-!
# Forward pass of the tensor / layer / model program (`src/p4/main.cpp`)

A shallow embedding of the C++ classes `Tensor`, `DenseLayer`, `Conv2D` and
`Model`, followed by theorems about them.

* `double` values are read over exact arithmetic: the scalar type is `ℚ`.
* `std::vector<std::vector<double>>` is `List (List ℚ)`; a vector index is
  checked, and an index outside the vector ends the run with
  `Fault.outOfBounds` (the C++ program has undefined behaviour there).
* `exit(EXIT_FAILURE)` ends the run with `Fault.exitFailure`.
* `int` fields are `Int`; `size_t` values are `Nat` with arithmetic taken
  modulo `2 ^ 64`, and an `int` used in a `size_t` expression is converted by
  `toSizeT`.
* Every `for` loop is a `forLoop` (counted loop) or a fold over the vector it
  ranges over, threading the mutated local variable as the loop state.
* `RAND_MAX` and the values returned by `std::rand()` come from the C library:
  the constructors take `RAND_MAX` and the sequence `rand` of values that the
  generator returns after `std::srand(...)` as arguments, and count the calls.
-/

namespace P4

/-! ## Runs and checked vector access -/

/-- Ways in which a run ends without producing a value. -/
inductive Fault where
  /-- A vector was indexed outside its bounds. -/
  | outOfBounds
  /-- The call `exit(EXIT_FAILURE)` was reached. -/
  | exitFailure
  /-- A vector constructor was asked for more elements than a vector can hold
  (`std::length_error`). -/
  | lengthError
  deriving DecidableEq, Repr

/-- Result of running a piece of the program. -/
abbrev Run (α : Type) := Except Fault α

/-- Checked read `d[i]` of a row of a nested vector. -/
def rowAt (d : List (List ℚ)) (i : Nat) : Run (List ℚ) :=
  match d[i]? with
  | some row => .ok row
  | none => .error .outOfBounds

/-- Checked read `row[j]` of a value of a vector. -/
def valAt (row : List ℚ) (j : Nat) : Run ℚ :=
  match row[j]? with
  | some v => .ok v
  | none => .error .outOfBounds

/-- Checked read `d[i][j]`. -/
def at2 (d : List (List ℚ)) (i j : Nat) : Run ℚ := do
  let row ← rowAt d i
  valAt row j

/-- Checked write `d[i][j] = v`. -/
def set2 (d : List (List ℚ)) (i j : Nat) (v : ℚ) : Run (List (List ℚ)) := do
  let row ← rowAt d i
  let _ ← valAt row j
  pure (d.set i (row.set j v))

/-- Counted loop `for (i = 0; i < n; ++i) body`, with the variables the body
mutates as the loop state. -/
def forLoop {σ : Type} (n : Nat) (body : Nat → σ → Run σ) (s : σ) : Run σ :=
  (List.range n).foldlM (fun s i => body i s) s

/-- Number of values of the type `size_t`. -/
def sizeModulus : Nat := 2 ^ 64

/-- Conversion of an `int` to `size_t` (reduction modulo `2 ^ 64`). -/
def toSizeT (x : Int) : Nat := (x % (sizeModulus : Int)).toNat

/-- Addition in `size_t`. -/
def sizeAdd (a b : Nat) : Nat := (a + b) % sizeModulus

/-- Subtraction in `size_t`, for operands below `2 ^ 64`. -/
def sizeSub (a b : Nat) : Nat := (a + (sizeModulus - b % sizeModulus)) % sizeModulus

/-! ## Tensor -/

/-- The class `Tensor`: a public nested vector `data`. -/
structure Tensor where
  data : List (List ℚ)
  deriving DecidableEq

/-- `Tensor::operator+`. -/
def Tensor.add (self other : Tensor) : Run Tensor := do
  let result := self.data
  let result ← forLoop self.data.length (fun i result => do
    let row ← rowAt self.data i
    forLoop row.length (fun j result => do
      let r ← at2 result i j
      let o ← at2 other.data i j
      set2 result i j (r + o)) result) result
  pure ⟨result⟩

/-- `Tensor::dot`. -/
def Tensor.dot (self other : Tensor) : Run Tensor := do
  let rows := self.data.length
  let cols := (← rowAt other.data 0).length
  let inner_dim := (← rowAt self.data 0).length
  let result := List.replicate rows (List.replicate cols (0 : ℚ))
  let result ← forLoop rows (fun i result =>
    forLoop cols (fun j result =>
      forLoop inner_dim (fun k result => do
        let r ← at2 result i j
        let a ← at2 self.data i k
        let b ← at2 other.data k j
        set2 result i j (r + a * b)) result) result) result
  pure ⟨result⟩

/-- `Tensor::flatten`: both range-for loops push onto the back of `flat`. -/
def Tensor.flatten (self : Tensor) : List ℚ :=
  self.data.foldl (fun flat row => row.foldl (fun flat val => flat ++ [val]) flat) []

/-- `Tensor::shape`: the pair `{data.size(), data[0].size()}`. -/
def Tensor.shape (self : Tensor) : Run (Nat × Nat) := do
  let row0 ← rowAt self.data 0
  pure (self.data.length, row0.length)

/-! ## Layers -/

/-- The class `DenseLayer`: its two private fields. -/
structure DenseLayer where
  weights : Tensor
  bias : Tensor
  deriving DecidableEq

/-- `DenseLayer::forward`. -/
def DenseLayer.forward (self : DenseLayer) (input : Tensor) : Run Tensor := do
  let (_input_rows, _input_cols) ← input.shape
  let flattened_input := input.flatten
  let reshaped_input := [flattened_input]
  let reshaped_tensor : Tensor := ⟨reshaped_input⟩
  let product ← reshaped_tensor.dot self.weights
  product.add self.bias

/-- The class `Conv2D`: its three private fields. -/
structure Conv2D where
  num_filters : Int
  kernel_size : Int
  filters : List Tensor
  deriving DecidableEq

/-- Checked read `filters[f]`. -/
def filterAt (filters : List Tensor) (f : Nat) : Run Tensor :=
  match filters[f]? with
  | some t => .ok t
  | none => .error .outOfBounds

/-- `Conv2D::convolve`. -/
def Conv2D.convolve (self : Conv2D) (input : Tensor) : Run Tensor := do
  let (input_rows, input_cols) ← input.shape
  if input_rows < toSizeT self.kernel_size ∨ input_cols < toSizeT self.kernel_size then
    throw Fault.exitFailure
  let output_dim := sizeAdd (sizeSub input_rows (toSizeT self.kernel_size)) 1
  let output := List.replicate output_dim (List.replicate output_dim (0 : ℚ))
  let output ← forLoop self.num_filters.toNat (fun f output =>
    forLoop output_dim (fun i output =>
      forLoop output_dim (fun j output => do
        let sum ← forLoop self.kernel_size.toNat (fun ki sum =>
          forLoop self.kernel_size.toNat (fun kj sum => do
            let x ← at2 input.data (sizeAdd i ki) (sizeAdd j kj)
            let flt ← filterAt self.filters f
            let w ← at2 flt.data ki kj
            pure (sum + x * w)) sum) (0 : ℚ)
        set2 output i j sum) output) output) output
  pure ⟨output⟩

/-- `Conv2D::forward`. -/
def Conv2D.forward (self : Conv2D) (input : Tensor) : Run Tensor :=
  self.convolve input

/-- The abstract class `Layer` with its two subclasses. -/
inductive Layer where
  | dense (l : DenseLayer)
  | conv2D (l : Conv2D)
  deriving DecidableEq

/-- Virtual call `layer->forward(input)`. -/
def Layer.forward : Layer → Tensor → Run Tensor
  | .dense l, input => l.forward input
  | .conv2D l, input => l.forward input

/-! ## Model -/

/-- The class `Model`: the vector of layers. -/
structure Model where
  layers : List Layer
  deriving DecidableEq

/-- `Model::add`: `layers.push_back(layer)`. -/
def Model.add (self : Model) (layer : Layer) : Model :=
  ⟨self.layers ++ [layer]⟩

/-- `Model::forward`. -/
def Model.forward (self : Model) (input : Tensor) : Run Tensor :=
  self.layers.foldlM (fun output layer => layer.forward output) input

/-- The literal `input_data` of `main`. -/
def main_input_data : List (List ℚ) :=
  [[1, 0, 1, 0, 1],
   [0, 1, 0, 1, 0],
   [1, 0, 1, 0, 1],
   [0, 1, 0, 1, 0],
   [1, 0, 1, 0, 1]]

/-- The tensor `input_tensor` of `main`. -/
def main_input_tensor : Tensor := ⟨main_input_data⟩

/-! ## Constructors -/

/-- The vector constructor `std::vector<T>(n, v)` called with an `int` size `n`. The
size is converted to `size_t`; a negative `n` becomes a value of at least
`2 ^ 64 - 2 ^ 31`, more than any vector can hold, and the constructor throws. -/
def vectorOfSize {α : Type} (n : Int) (v : α) : Run (List α) :=
  if n < 0 then .error .lengthError else .ok (List.replicate n.toNat v)

/-- The expression `static_cast<double>(std::rand()) / RAND_MAX`, for the value `r`
returned by `std::rand()`. -/
def randomValue (RAND_MAX r : Nat) : ℚ := (r : ℚ) / (RAND_MAX : ℚ)

/-- `DenseLayer::DenseLayer(int input_size, int output_size)`. The loop state is the
vector `weight_data` with the number of calls of `std::rand()` made so far. -/
def DenseLayer.new (RAND_MAX : Nat) (rand : Nat → Nat) (input_size output_size : Int) :
    Run DenseLayer := do
  let weight_row ← vectorOfSize output_size (0 : ℚ)
  let weight_data ← vectorOfSize input_size weight_row
  let st ← forLoop input_size.toNat (fun i st =>
    forLoop output_size.toNat (fun j (st : List (List ℚ) × Nat) => do
      let weight_data ← set2 st.1 i j (randomValue RAND_MAX (rand st.2))
      pure (weight_data, st.2 + 1)) st) (weight_data, 0)
  let weights : Tensor := ⟨st.1⟩
  let bias_row ← vectorOfSize output_size (0 : ℚ)
  let bias_data ← vectorOfSize 1 bias_row
  let bias : Tensor := ⟨bias_data⟩
  pure ⟨weights, bias⟩

/-- `Conv2D::Conv2D(int num_filters, int kernel_size)`. The state of the outer loop is
the vector `filters` with the number of calls of `std::rand()` made so far. -/
def Conv2D.new (RAND_MAX : Nat) (rand : Nat → Nat) (num_filters kernel_size : Int) :
    Run Conv2D := do
  let st ← forLoop num_filters.toNat (fun _i (st : List Tensor × Nat) => do
    let filter_row ← vectorOfSize kernel_size (0 : ℚ)
    let filter ← vectorOfSize kernel_size filter_row
    let fs ← forLoop kernel_size.toNat (fun j fs =>
      forLoop kernel_size.toNat (fun k (fs : List (List ℚ) × Nat) => do
        let filter ← set2 fs.1 j k (randomValue RAND_MAX (rand fs.2))
        pure (filter, fs.2 + 1)) fs) (filter, st.2)
    pure (st.1 ++ [Tensor.mk fs.1], fs.2)) ([], 0)
  pure ⟨num_filters, kernel_size, st.1⟩

/-! ## Methods with the object as state

`forward` and `convolve` are not `const` methods, so a call may assign to the members
of the object it runs on. In this section a method body is a function of the object:
every read of a member reads the object as it is at that point, every statement passes
the object on to the next one, and a loop whose condition reads a member evaluates the
condition before every iteration, on the object as the iterations so far left it. Such
a loop is run with fuel, one unit for every evaluation of its condition. The methods of
`Tensor` that the bodies call are `const` and take their arguments by `const`
reference. -/

/-- The run of a method body on an object of type `ω`: `none` when a loop ran out of
fuel, else a fault, or the value together with the object after the run. -/
def Meth (ω α : Type) : Type := ω → Option (Run (α × ω))

instance instMonadMeth {ω : Type} : Monad (Meth ω) where
  pure a := fun s => some (.ok (a, s))
  bind m f := fun s =>
    match m s with
    | none => none
    | some (.error e) => some (.error e)
    | some (.ok (a, s2)) => f a s2

/-- Read of a member of the object. -/
def Meth.member {ω α : Type} (field : ω → α) : Meth ω α :=
  fun s => some (.ok (field s, s))

/-- A computation without access to the object: a call of a `const` method of `Tensor`,
a checked index, `exit`. -/
def Meth.run {ω α : Type} (r : Run α) : Meth ω α :=
  fun s => some (Except.map (fun a => (a, s)) r)

/-- A call of a method on a part `part` of the object (a subobject, the target of a
pointer member): the callee runs on the part, and `store` puts the part as the callee
left it back into the object. -/
def Meth.call {ω π α : Type} (part : ω → Run π) (store : ω → π → ω) (callee : Meth π α) :
    Meth ω α :=
  fun s =>
    match part s with
    | .error e => some (.error e)
    | .ok p =>
      match callee p with
      | none => none
      | some (.error e) => some (.error e)
      | some (.ok (a, p2)) => some (.ok (a, store s p2))

/-- Counted loop `for (i = start; i < start + n; ++i) body` whose bound is a local that
the loop does not assign; `x` holds the locals that the body assigns. -/
def forCountM {ω σ : Type} (body : Nat → σ → Meth ω σ) : Nat → Nat → σ → Meth ω σ
  | 0, _, x => pure x
  | n + 1, i, x => do
    let x ← body i x
    forCountM body n (i + 1) x

/-- Loop `for (int i = start; cond; ++i) body` whose condition `cond` reads the object.
It gives no result when the fuel is used up. -/
def forWhileM {ω σ : Type} (cond : Nat → Meth ω Bool) (body : Nat → σ → Meth ω σ) :
    Nat → Nat → σ → Meth ω σ
  | 0, _, _ => fun _ => none
  | fuel + 1, i, x => do
    let go ← cond i
    if go then
      let x ← body i x
      forWhileM cond body fuel (i + 1) x
    else
      pure x

/-- `DenseLayer::forward` as a method body. -/
def DenseLayer.forwardM (input : Tensor) : Meth DenseLayer Tensor := do
  let (_input_rows, _input_cols) ← Meth.run input.shape
  let flattened_input := input.flatten
  let reshaped_input := [flattened_input]
  let reshaped_tensor : Tensor := ⟨reshaped_input⟩
  let weights ← Meth.member DenseLayer.weights
  let product ← Meth.run (reshaped_tensor.dot weights)
  let bias ← Meth.member DenseLayer.bias
  Meth.run (product.add bias)

/-- `Conv2D::convolve` as a method body. The conditions `f < num_filters`,
`ki < kernel_size` and `kj < kernel_size` read the member at every evaluation. -/
def Conv2D.convolveM (fuel : Nat) (input : Tensor) : Meth Conv2D Tensor := do
  let (input_rows, input_cols) ← Meth.run input.shape
  let kernel_size ← Meth.member Conv2D.kernel_size
  if input_rows < toSizeT kernel_size ∨ input_cols < toSizeT kernel_size then
    Meth.run (throw Fault.exitFailure)
  let kernel_size ← Meth.member Conv2D.kernel_size
  let output_dim := sizeAdd (sizeSub input_rows (toSizeT kernel_size)) 1
  let output := List.replicate output_dim (List.replicate output_dim (0 : ℚ))
  let output ← forWhileM
    (fun f => do
      let num_filters ← Meth.member Conv2D.num_filters
      pure (decide ((f : Int) < num_filters)))
    (fun f output =>
      forCountM (fun i output =>
        forCountM (fun j output => do
          let sum ← forWhileM
            (fun ki => do
              let kernel_size ← Meth.member Conv2D.kernel_size
              pure (decide ((ki : Int) < kernel_size)))
            (fun ki sum =>
              forWhileM
                (fun kj => do
                  let kernel_size ← Meth.member Conv2D.kernel_size
                  pure (decide ((kj : Int) < kernel_size)))
                (fun kj sum => do
                  let x ← Meth.run (at2 input.data (sizeAdd i ki) (sizeAdd j kj))
                  let filters ← Meth.member Conv2D.filters
                  let flt ← Meth.run (filterAt filters f)
                  let w ← Meth.run (at2 flt.data ki kj)
                  pure (sum + x * w))
                fuel 0 sum)
            fuel 0 (0 : ℚ)
          Meth.run (set2 output i j sum)) output_dim 0 output) output_dim 0 output)
    fuel 0 output
  pure ⟨output⟩

/-- `Conv2D::forward` as a method body: the call `convolve(input)` on the same
object. -/
def Conv2D.forwardM (fuel : Nat) (input : Tensor) : Meth Conv2D Tensor :=
  Conv2D.convolveM fuel input

/-- Virtual call `layer->forward(input)` on a layer object: the body of the subclass
runs on the object, which stays of that subclass. -/
def Layer.forwardM (fuel : Nat) (input : Tensor) : Meth Layer Tensor :=
  fun self =>
    match self with
    | .dense d => Meth.call (fun _ => .ok d) (fun _ d2 => Layer.dense d2)
        (DenseLayer.forwardM input) self
    | .conv2D c => Meth.call (fun _ => .ok c) (fun _ c2 => Layer.conv2D c2)
        (Conv2D.forwardM fuel input) self

/-- Checked read `layers[i]`. -/
def layerAt (layers : List Layer) (i : Nat) : Run Layer :=
  match layers[i]? with
  | some l => .ok l
  | none => .error .outOfBounds

/-- `Model::forward` as a method body. The range-for loop takes the end of the vector
`layers` once, before the first iteration; iteration `i` calls `forward` on the layer
object that `layers[i]` points to, and that object, as the call left it, is the one
`layers[i]` points to afterwards. -/
def Model.forwardM (fuel : Nat) (input : Tensor) : Meth Model Tensor := do
  let output := input
  let size ← Meth.member (fun self : Model => self.layers.length)
  forCountM (fun i output =>
    Meth.call (fun self : Model => layerAt self.layers i)
      (fun self layer => ⟨self.layers.set i layer⟩)
      (Layer.forwardM fuel output)) size 0 output

/-! ## Vocabulary of the statements -/

/-- The tensor has `R` rows, each of length `C`. -/
def Tensor.hasShape (T : Tensor) (R C : Nat) : Prop :=
  T.data.length = R ∧ ∀ row ∈ T.data, row.length = C

instance (T : Tensor) (R C : Nat) : Decidable (T.hasShape R C) := by
  unfold Tensor.hasShape; infer_instance

/-- The value at row `i`, column `j` (zero outside the tensor). -/
def Tensor.entry (T : Tensor) (i j : Nat) : ℚ :=
  (T.data.getD i []).getD j 0

/-- Valid-mode, stride-1 cross-correlation of `x` with a `k × k` window `w`, at
output position `(i, j)`. -/
def crossCorr (x w : Nat → Nat → ℚ) (k i j : Nat) : ℚ :=
  ∑ ki ∈ Finset.range k, ∑ kj ∈ Finset.range k, x (i + ki) (j + kj) * w ki kj

/-- The positions `(i, j)` of a `5 × 5` grid with `i + j` even. -/
def evenPositions : Finset (Nat × Nat) :=
  (Finset.range 5 ×ˢ Finset.range 5).filter (fun p => (p.1 + p.2) % 2 = 0)

/-- The layers applied one after the other, first layer first:
`ln.forward(... l1.forward(x) ...)`. -/
def applyInOrder : List Layer → Tensor → Run Tensor
  | [], x => .ok x
  | l :: ls, x => l.forward x >>= applyInOrder ls

/-- The largest number of iterations of a loop of `forward` whose condition reads a
member of the layer. -/
def Layer.loopBound : Layer → Nat
  | .dense _ => 0
  | .conv2D c => max c.num_filters.toNat c.kernel_size.toNat

/-- The largest `Layer.loopBound` among the layers of the model. -/
def Model.loopBound (m : Model) : Nat :=
  (m.layers.map Layer.loopBound).foldr max 0

/-- The left block of a tensor: the first `r` values of every row. -/
def Tensor.leftBlock (T : Tensor) (r : Nat) : Tensor :=
  ⟨T.data.map (fun row => row.take r)⟩

/-- The `R × C` nested vector whose value at row `i`, column `j` is `f i j`. -/
def matOf (R C : Nat) (f : Nat → Nat → ℚ) : List (List ℚ) :=
  (List.range R).map (fun i => (List.range C).map (fun j => f i j))

/-! ## Runs: basic facts -/

@[simp] theorem run_ok_bind {α β : Type} (a : α) (f : α → Run β) :
    (Except.ok a >>= f) = f a := rfl

@[simp] theorem run_error_bind {α β : Type} (e : Fault) (f : α → Run β) :
    ((Except.error e : Run α) >>= f) = Except.error e := rfl

theorem run_pure {α : Type} (a : α) : (pure a : Run α) = Except.ok a := rfl

theorem forLoop_zero {σ : Type} (body : Nat → σ → Run σ) (s : σ) :
    forLoop 0 body s = .ok s := rfl

theorem forLoop_succ {σ : Type} (n : Nat) (body : Nat → σ → Run σ) (s : σ) :
    forLoop (n + 1) body s = forLoop n body s >>= body n := by
  simp [forLoop, List.range_succ, List.foldlM_append]

/-- Loop rule: an invariant that holds on entry and is carried by every
iteration holds on exit, and the loop returns. -/
theorem forLoop_inv {σ : Type} (P : Nat → σ → Prop) (n : Nat) (body : Nat → σ → Run σ)
    (s : σ) (h0 : P 0 s)
    (hstep : ∀ i t, i < n → P i t → ∃ t', body i t = .ok t' ∧ P (i + 1) t') :
    ∃ t, forLoop n body s = .ok t ∧ P n t := by
  induction n with
  | zero => exact ⟨s, rfl, h0⟩
  | succ n ih =>
    obtain ⟨t, ht, hP⟩ := ih (fun i t hi hp => hstep i t (by omega) hp)
    obtain ⟨t', ht', hP'⟩ := hstep n t (by omega) hP
    exact ⟨t', by rw [forLoop_succ, ht]; exact ht', hP'⟩

/-- A fault raised by iteration `m` of a loop is the result of the loop. -/
theorem forLoop_fault {σ : Type} (n m : Nat) (body : Nat → σ → Run σ) (s t : σ) (e : Fault)
    (hm : m < n) (hpre : forLoop m body s = .ok t) (hbody : body m t = .error e) :
    forLoop n body s = .error e := by
  induction n with
  | zero => omega
  | succ n ih =>
    rw [forLoop_succ]
    by_cases h : m < n
    · rw [ih h]; rfl
    · have : m = n := by omega
      subst this
      rw [hpre]; exact hbody

/-- Fault rule with an invariant: if the invariant is carried up to iteration `m` and
iteration `m` faults on every state that satisfies it, the loop faults. -/
theorem forLoop_fault_inv {σ : Type} (P : Nat → σ → Prop) (n m : Nat)
    (body : Nat → σ → Run σ) (s : σ) (e : Fault) (hm : m < n) (h0 : P 0 s)
    (hstep : ∀ i t, i < m → P i t → ∃ t', body i t = .ok t' ∧ P (i + 1) t')
    (hbody : ∀ t, P m t → body m t = .error e) :
    forLoop n body s = .error e := by
  obtain ⟨t, ht, hP⟩ := forLoop_inv P m body s h0 hstep
  exact forLoop_fault n m body s t e hm ht (hbody t hP)

theorem bind_eq_of_error {α β : Type} (x : Run α) (e : Fault) (f : α → Run β)
    (hx : x = .error e) : (x >>= f) = .error e := by
  rw [hx]; rfl

theorem bind_ne_fault {α β : Type} (e : Fault) (x : Run α) (f : α → Run β)
    (hx : x ≠ .error e) (hf : ∀ a, f a ≠ .error e) : (x >>= f) ≠ .error e := by
  cases x with
  | error e' =>
    intro h
    apply hx
    rw [run_error_bind] at h
    cases h
    rfl
  | ok a => exact hf a

/-- A loop whose body never raises the fault `e` does not raise it. -/
theorem forLoop_ne_fault {σ : Type} (e : Fault) (n : Nat) (body : Nat → σ → Run σ) (s : σ)
    (h : ∀ i t, body i t ≠ .error e) : forLoop n body s ≠ .error e := by
  induction n with
  | zero =>
    rw [forLoop_zero]
    intro hc
    cases hc
  | succ n ih =>
    rw [forLoop_succ]
    exact bind_ne_fault e _ _ ih (h n)

/-! ## Nested vectors as functions -/

theorem matOf_length (R C : Nat) (f : Nat → Nat → ℚ) : (matOf R C f).length = R := by
  simp [matOf]

theorem matOf_getElem? (R C : Nat) (f : Nat → Nat → ℚ) (i : Nat) (hi : i < R) :
    (matOf R C f)[i]? = some ((List.range C).map (fun j => f i j)) := by
  simp [matOf, List.getElem?_map, List.getElem?_range hi]

theorem matOf_congr (R C : Nat) (f g : Nat → Nat → ℚ)
    (h : ∀ i j, i < R → j < C → f i j = g i j) : matOf R C f = matOf R C g := by
  unfold matOf
  apply List.map_congr_left
  intro i hi
  apply List.map_congr_left
  intro j hj
  exact h i j (List.mem_range.mp hi) (List.mem_range.mp hj)

theorem rowAt_matOf (R C : Nat) (f : Nat → Nat → ℚ) (i : Nat) (hi : i < R) :
    rowAt (matOf R C f) i = .ok ((List.range C).map (fun j => f i j)) := by
  simp [rowAt, matOf_getElem? R C f i hi]

theorem at2_matOf (R C : Nat) (f : Nat → Nat → ℚ) (i j : Nat) (hi : i < R) (hj : j < C) :
    at2 (matOf R C f) i j = .ok (f i j) := by
  simp [at2, rowAt_matOf R C f i hi, valAt, List.getElem?_map, List.getElem?_range hj]

theorem replicate_eq_matOf (R C : Nat) :
    List.replicate R (List.replicate C (0 : ℚ)) = matOf R C (fun _ _ => 0) := by
  simp [matOf, List.map_const']

theorem set_map_range {α : Type} (n : Nat) (g : Nat → α) (i : Nat) (v : α) :
    ((List.range n).map g).set i v = (List.range n).map (fun a => if a = i then v else g a) := by
  apply List.ext_getElem?
  intro a
  by_cases ha : a < n
  · by_cases hai : a = i
    · subst hai
      simp [List.getElem?_set, List.getElem?_map, List.getElem?_range ha, ha]
    · have hia : ¬ i = a := fun h => hai h.symm
      simp [List.getElem?_set, List.getElem?_map, List.getElem?_range ha, hai, hia]
  · have h1 : (((List.range n).map g).set i v).length ≤ a := by simp; omega
    have h2 : ((List.range n).map (fun a => if a = i then v else g a)).length ≤ a := by
      simp; omega
    rw [List.getElem?_eq_none h1, List.getElem?_eq_none h2]

theorem set2_matOf (R C : Nat) (f : Nat → Nat → ℚ) (i j : Nat) (v : ℚ) (hi : i < R)
    (hj : j < C) :
    set2 (matOf R C f) i j v
      = .ok (matOf R C (fun a b => if a = i ∧ b = j then v else f a b)) := by
  have hval : valAt ((List.range C).map (fun b => f i b)) j = .ok (f i j) := by
    simp [valAt, List.getElem?_map, List.getElem?_range hj]
  simp only [set2, rowAt_matOf R C f i hi, hval, run_ok_bind, run_pure]
  congr 1
  unfold matOf
  rw [set_map_range, set_map_range]
  apply List.map_congr_left
  intro a _
  by_cases hai : a = i
  · subst hai
    simp
  · simp [hai]

theorem hasShape_matOf (R C : Nat) (f : Nat → Nat → ℚ) :
    (Tensor.mk (matOf R C f)).hasShape R C := by
  refine ⟨matOf_length R C f, ?_⟩
  intro row hrow
  simp only [matOf, List.mem_map] at hrow
  obtain ⟨i, _, rfl⟩ := hrow
  simp

theorem entry_matOf (R C : Nat) (f : Nat → Nat → ℚ) (i j : Nat) (hi : i < R) (hj : j < C) :
    (Tensor.mk (matOf R C f)).entry i j = f i j := by
  simp [Tensor.entry, List.getD_eq_getElem?_getD, matOf_getElem? R C f i hi,
    List.getElem?_map, List.getElem?_range hj]

/-- A tensor of shape `R × C` is the nested vector of its entries. -/
theorem data_eq_matOf (T : Tensor) (R C : Nat) (h : T.hasShape R C) :
    T.data = matOf R C T.entry := by
  obtain ⟨hlen, hrows⟩ := h
  apply List.ext_getElem?
  intro i
  by_cases hi : i < R
  · rw [matOf_getElem? R C _ i hi]
    have hi' : i < T.data.length := by omega
    rw [List.getElem?_eq_getElem hi']
    congr 1
    have hrl : (T.data[i]).length = C := hrows _ (List.getElem_mem hi')
    apply List.ext_getElem?
    intro j
    by_cases hj : j < C
    · have hj' : j < (T.data[i]).length := by omega
      simp [List.getElem?_map, List.getElem?_range hj, Tensor.entry,
        List.getD_eq_getElem?_getD, List.getElem?_eq_getElem hi', List.getElem?_eq_getElem hj']
    · rw [List.getElem?_eq_none (by omega), List.getElem?_eq_none (by simp; omega)]
  · rw [List.getElem?_eq_none (by omega), List.getElem?_eq_none (by simp [matOf]; omega)]

theorem tensor_eq_matOf (T : Tensor) (R C : Nat) (h : T.hasShape R C) :
    T = ⟨matOf R C T.entry⟩ := by
  cases T with
  | mk d =>
    congr 1
    exact data_eq_matOf _ R C h

/-- Two tensors of one shape with the same entries are equal. -/
theorem tensor_ext (S T : Tensor) (R C : Nat) (hS : S.hasShape R C) (hT : T.hasShape R C)
    (h : ∀ i j, i < R → j < C → S.entry i j = T.entry i j) : S = T := by
  cases S with
  | mk sd =>
    cases T with
    | mk td =>
      have h1 := data_eq_matOf _ R C hS
      have h2 := data_eq_matOf _ R C hT
      simp only at h1 h2
      congr 1
      rw [h1, h2]
      exact matOf_congr R C _ _ h

/-! ## Deterministic loop rule -/

/-- Loop rule for a loop whose state after `i` iterations is known to be `S i`. -/
theorem forLoop_trace {σ : Type} (S : Nat → σ) (n : Nat) (body : Nat → σ → Run σ) (s t : σ)
    (h0 : s = S 0) (hstep : ∀ i, i < n → body i (S i) = .ok (S (i + 1))) (hn : S n = t) :
    forLoop n body s = .ok t := by
  obtain ⟨u, hu, hP⟩ := forLoop_inv (fun i u => u = S i) n body s h0
    (fun i u hi hu => ⟨S (i + 1), by rw [hu]; exact hstep i hi, rfl⟩)
  rw [hu, hP, hn]

theorem bind_eq_of_ok {α β : Type} (x : Run α) (a : α) (f : α → Run β) (r : Run β)
    (hx : x = .ok a) (hf : f a = r) : (x >>= f) = r := by
  rw [hx]; exact hf

/-! ## `Tensor::operator+` -/

theorem add_matOf (R C : Nat) (f g : Nat → Nat → ℚ) :
    Tensor.add ⟨matOf R C f⟩ ⟨matOf R C g⟩
      = .ok ⟨matOf R C (fun i j => f i j + g i j)⟩ := by
  simp only [Tensor.add, matOf_length]
  apply bind_eq_of_ok _ (matOf R C (fun i j => f i j + g i j)) _ _ _ rfl
  apply forLoop_trace (fun i => matOf R C (fun a b => if a < i then f a b + g a b else f a b))
  · simp
  · intro i hi
    simp only [rowAt_matOf R C f i hi, run_ok_bind, List.length_map, List.length_range]
    apply forLoop_trace (fun j => matOf R C
      (fun a b => if a < i ∨ (a = i ∧ b < j) then f a b + g a b else f a b))
    · apply matOf_congr
      intro a b _ _
      simp
    · intro j hj
      rw [at2_matOf _ _ _ _ _ hi hj, at2_matOf _ _ _ _ _ hi hj]
      simp only [run_ok_bind]
      rw [set2_matOf _ _ _ _ _ _ hi hj]
      congr 1
      apply matOf_congr
      intro a b _ _
      by_cases h1 : a = i ∧ b = j
      · obtain ⟨rfl, rfl⟩ := h1
        simp
      · by_cases h2 : a < i ∨ (a = i ∧ b < j)
        · have h3 : a < i ∨ (a = i ∧ b < j + 1) := by omega
          simp [h1, h2, h3]
        · have h3 : ¬ (a < i ∨ (a = i ∧ b < j + 1)) := by omega
          simp [h1, h2, h3]
    · apply matOf_congr
      intro a b _ hb
      by_cases h2 : a < i + 1
      · have h3 : a < i ∨ (a = i ∧ b < C) := by omega
        simp [h2, h3]
      · have h3 : ¬ (a < i ∨ (a = i ∧ b < C)) := by omega
        simp [h2, h3]
  · apply matOf_congr
    intro a b ha _
    simp [ha]

/-! ## `Tensor::dot` -/

/-- The product loop on an `R × N` left operand and an `M × C` right operand.
The inner index only runs over the `N` columns of the left operand, so the
right operand may have more rows than are read. -/
theorem dot_matOf (R N M C : Nat) (f g : Nat → Nat → ℚ) (hR : 1 ≤ R) (hM : 1 ≤ M)
    (hNM : N ≤ M ∨ C = 0) :
    Tensor.dot ⟨matOf R N f⟩ ⟨matOf M C g⟩
      = .ok ⟨matOf R C (fun i j => ∑ k ∈ Finset.range N, f i k * g k j)⟩ := by
  simp only [Tensor.dot, matOf_length, rowAt_matOf M C g 0 (by omega),
    rowAt_matOf R N f 0 (by omega), run_ok_bind, List.length_map, List.length_range,
    replicate_eq_matOf]
  apply bind_eq_of_ok _ (matOf R C (fun i j => ∑ k ∈ Finset.range N, f i k * g k j)) _ _ _ rfl
  apply forLoop_trace (fun i => matOf R C
    (fun a b => if a < i then ∑ k ∈ Finset.range N, f a k * g k b else 0))
  · simp
  · intro i hi
    apply forLoop_trace (fun j => matOf R C
      (fun a b => if a < i ∨ (a = i ∧ b < j) then ∑ k ∈ Finset.range N, f a k * g k b else 0))
    · apply matOf_congr
      intro a b _ _
      simp
    · intro j hj
      have hN : N ≤ M := by omega
      apply forLoop_trace (fun k => matOf R C
        (fun a b => if a = i ∧ b = j then ∑ k' ∈ Finset.range k, f a k' * g k' b
          else if a < i ∨ (a = i ∧ b < j) then ∑ k ∈ Finset.range N, f a k * g k b else 0))
      · apply matOf_congr
        intro a b _ _
        by_cases h1 : a = i ∧ b = j
        · have h2 : ¬ (a < i ∨ (a = i ∧ b < j)) := by omega
          simp [h1, h2]
        · simp [h1]
      · intro k hk
        rw [at2_matOf _ _ _ _ _ hi hj, at2_matOf _ _ _ _ _ hi hk,
          at2_matOf _ _ _ _ _ (show k < M by omega) hj]
        simp only [run_ok_bind]
        rw [set2_matOf _ _ _ _ _ _ hi hj]
        congr 1
        apply matOf_congr
        intro a b _ _
        by_cases h1 : a = i ∧ b = j
        · obtain ⟨rfl, rfl⟩ := h1
          simp [Finset.sum_range_succ]
        · simp [h1]
      · apply matOf_congr
        intro a b _ _
        by_cases h1 : a = i ∧ b = j
        · have h3 : a < i ∨ (a = i ∧ b < j + 1) := by omega
          simp [h1, h3]
        · by_cases h2 : a < i ∨ (a = i ∧ b < j)
          · have h3 : a < i ∨ (a = i ∧ b < j + 1) := by omega
            simp [h1, h2, h3]
          · have h3 : ¬ (a < i ∨ (a = i ∧ b < j + 1)) := by omega
            simp [h1, h2, h3]
    · apply matOf_congr
      intro a b _ hb
      by_cases h2 : a < i + 1
      · have h3 : a < i ∨ (a = i ∧ b < C) := by omega
        simp [h2, h3]
      · have h3 : ¬ (a < i ∨ (a = i ∧ b < C)) := by omega
        simp [h2, h3]
  · apply matOf_congr
    intro a b ha _
    simp [ha]

/-! ## `Tensor::flatten` -/

theorem foldl_push (row flat : List ℚ) :
    row.foldl (fun flat val => flat ++ [val]) flat = flat ++ row := by
  induction row generalizing flat with
  | nil => simp
  | cons v row ih => simp [ih]

theorem foldl_rows (d : List (List ℚ)) (flat : List ℚ) :
    d.foldl (fun flat row => row.foldl (fun flat val => flat ++ [val]) flat) flat
      = flat ++ d.flatten := by
  induction d generalizing flat with
  | nil => simp
  | cons row d ih =>
    simp only [List.foldl_cons, List.flatten_cons]
    rw [ih, foldl_push, List.append_assoc]

theorem flatten_eq (T : Tensor) : T.flatten = T.data.flatten := by
  simp [Tensor.flatten, foldl_rows]

theorem flatten_length_of_rows (d : List (List ℚ)) (C : Nat) (h : ∀ row ∈ d, row.length = C) :
    d.flatten.length = d.length * C := by
  induction d with
  | nil => simp
  | cons row d ih =>
    have h1 : row.length = C := h row (by simp)
    have h2 := ih (fun r hr => h r (by simp [hr]))
    simp only [List.flatten_cons, List.length_append, List.length_cons, h1, h2]
    ring

theorem flatten_getElem? (d : List (List ℚ)) (C : Nat) (h : ∀ row ∈ d, row.length = C)
    (i j : Nat) (hj : j < C) :
    d.flatten[i * C + j]? = (d.getD i [])[j]? := by
  induction d generalizing i with
  | nil => simp
  | cons row d ih =>
    have h1 : row.length = C := h row (by simp)
    cases i with
    | zero =>
      simp only [List.flatten_cons, Nat.zero_mul, Nat.zero_add, List.getD_cons_zero]
      rw [List.getElem?_append_left (by omega)]
    | succ i =>
      simp only [List.flatten_cons, List.getD_cons_succ]
      rw [List.getElem?_append_right (by rw [h1]; nlinarith)]
      have : (i + 1) * C + j - row.length = i * C + j := by
        rw [h1, Nat.add_mul]; omega
      rw [this]
      exact ih (fun r hr => h r (by simp [hr])) i

theorem entry_of_getElem? (T : Tensor) (i j : Nat) (v : ℚ)
    (h : (T.data.getD i [])[j]? = some v) : T.entry i j = v := by
  unfold Tensor.entry
  generalize T.data.getD i [] = row at h
  rw [List.getD_eq_getElem?_getD, h]
  rfl

theorem getElem?_of_shape (T : Tensor) (R C i j : Nat) (h : T.hasShape R C) (hi : i < R)
    (hj : j < C) : (T.data.getD i [])[j]? = some (T.entry i j) := by
  have hd := data_eq_matOf T R C h
  rw [hd, List.getD_eq_getElem?_getD, matOf_getElem? R C _ i hi]
  simp [List.getElem?_map, List.getElem?_range hj]

/-! ## `size_t` arithmetic -/

theorem toSizeT_natCast (k : Nat) (h : k < sizeModulus) : toSizeT (k : Int) = k := by
  unfold toSizeT
  rw [Int.emod_eq_of_lt (by omega) (by exact_mod_cast h)]
  simp

theorem sizeAdd_of_lt (a b : Nat) (h : a + b < sizeModulus) : sizeAdd a b = a + b := by
  unfold sizeAdd
  exact Nat.mod_eq_of_lt h

theorem sizeSub_of_le (a b : Nat) (hba : b ≤ a) (ha : a < sizeModulus) :
    sizeSub a b = a - b := by
  unfold sizeSub
  rw [Nat.mod_eq_of_lt (show b < sizeModulus by omega)]
  have : a + (sizeModulus - b) = (a - b) + sizeModulus := by omega
  rw [this, Nat.add_mod_right]
  exact Nat.mod_eq_of_lt (by omega)

/-! ## `Tensor::shape` -/

theorem shape_matOf (R C : Nat) (f : Nat → Nat → ℚ) (hR : 1 ≤ R) :
    Tensor.shape ⟨matOf R C f⟩ = .ok (R, C) := by
  simp [Tensor.shape, rowAt_matOf R C f 0 (by omega), matOf_length, run_pure]

/-! ## `Conv2D::convolve` -/

theorem filterAt_of_lt (filters : List Tensor) (f : Nat) (h : f < filters.length) :
    filterAt filters f = .ok (filters.getD f ⟨[]⟩) := by
  simp [filterAt, List.getD_eq_getElem?_getD, List.getElem?_eq_getElem h]

theorem at2_of_shape (T : Tensor) (R C i j : Nat) (h : T.hasShape R C) (hi : i < R)
    (hj : j < C) : at2 T.data i j = .ok (T.entry i j) := by
  rw [data_eq_matOf T R C h]
  exact at2_matOf R C _ i j hi hj

/-- The two innermost loops of `convolve`: the window sum at output position
`(i, j)` for filter number `f`. -/
theorem window_loop (r c k i j f : Nat) (x : Nat → Nat → ℚ) (filters : List Tensor)
    (hf : f < filters.length) (hshape : (filters.getD f ⟨[]⟩).hasShape k k)
    (hi : i + k ≤ r) (hj : j + k ≤ r) (hrc : r ≤ c) (hr : r < sizeModulus) :
    forLoop k (fun ki sum =>
      forLoop k (fun kj sum => do
        let x ← at2 (matOf r c x) (sizeAdd i ki) (sizeAdd j kj)
        let flt ← filterAt filters f
        let w ← at2 flt.data ki kj
        pure (sum + x * w)) sum) (0 : ℚ)
      = .ok (crossCorr x (filters.getD f ⟨[]⟩).entry k i j) := by
  apply forLoop_trace (fun ki => ∑ ki' ∈ Finset.range ki, ∑ kj ∈ Finset.range k,
    x (i + ki') (j + kj) * (filters.getD f ⟨[]⟩).entry ki' kj)
  · simp
  · intro ki hki
    apply forLoop_trace (fun kj => (∑ ki' ∈ Finset.range ki, ∑ kj ∈ Finset.range k,
        x (i + ki') (j + kj) * (filters.getD f ⟨[]⟩).entry ki' kj)
      + ∑ kj' ∈ Finset.range kj, x (i + ki) (j + kj') * (filters.getD f ⟨[]⟩).entry ki kj')
    · simp
    · intro kj hkj
      rw [sizeAdd_of_lt i ki (by omega), sizeAdd_of_lt j kj (by omega),
        at2_matOf r c x (i + ki) (j + kj) (by omega) (by omega), filterAt_of_lt filters f hf]
      simp only [run_ok_bind]
      rw [at2_of_shape _ k k ki kj hshape hki hkj]
      simp only [run_ok_bind, run_pure]
      rw [Finset.sum_range_succ (fun kj' => x (i + ki) (j + kj')
        * (filters.getD f ⟨[]⟩).entry ki kj') kj, add_assoc]
    · rw [Finset.sum_range_succ (fun ki' => ∑ kj ∈ Finset.range k,
        x (i + ki') (j + kj) * (filters.getD f ⟨[]⟩).entry ki' kj) ki]
  · rfl

theorem convolve_matOf (L : Conv2D) (k m r c : Nat) (x : Nat → Nat → ℚ)
    (hk : L.kernel_size = (k : Int)) (hm : L.num_filters = (m : Int))
    (hlen : m ≤ L.filters.length) (hF : ∀ F ∈ L.filters, F.hasShape k k)
    (hr1 : 1 ≤ r) (hkr : k ≤ r) (hrc : r ≤ c) (hr : r < sizeModulus)
    (hod : r - k + 1 < sizeModulus) :
    L.convolve ⟨matOf r c x⟩ = .ok ⟨matOf (r - k + 1) (r - k + 1) (fun i j =>
      if m = 0 then 0 else crossCorr x (L.filters.getD (m - 1) ⟨[]⟩).entry k i j)⟩ := by
  have hks : toSizeT (k : Int) = k := toSizeT_natCast k (by omega)
  have hguard : ¬ (r < k ∨ c < k) := by omega
  simp only [Conv2D.convolve, shape_matOf r c x hr1, run_ok_bind, hk, hm, hks, hguard,
    if_false, Int.toNat_ofNat, sizeSub_of_le r k hkr hr, sizeAdd_of_lt (r - k) 1 hod,
    replicate_eq_matOf, pure_bind]
  apply bind_eq_of_ok _ (matOf (r - k + 1) (r - k + 1) (fun i j =>
    if m = 0 then 0 else crossCorr x (L.filters.getD (m - 1) ⟨[]⟩).entry k i j)) _ _ _ rfl
  apply forLoop_trace (fun f => matOf (r - k + 1) (r - k + 1) (fun i j =>
    if f = 0 then 0 else crossCorr x (L.filters.getD (f - 1) ⟨[]⟩).entry k i j))
  · simp
  · intro f hf
    have hfl : f < L.filters.length := by omega
    have hsh : (L.filters.getD f ⟨[]⟩).hasShape k k := by
      apply hF
      rw [List.getD_eq_getElem?_getD, List.getElem?_eq_getElem hfl]
      exact List.getElem_mem hfl
    apply forLoop_trace (fun i => matOf (r - k + 1) (r - k + 1) (fun a b =>
      if a < i then crossCorr x (L.filters.getD f ⟨[]⟩).entry k a b
      else if f = 0 then 0 else crossCorr x (L.filters.getD (f - 1) ⟨[]⟩).entry k a b))
    · apply matOf_congr
      intro a b _ _
      simp
    · intro i hi
      apply forLoop_trace (fun j => matOf (r - k + 1) (r - k + 1) (fun a b =>
        if a < i ∨ (a = i ∧ b < j) then crossCorr x (L.filters.getD f ⟨[]⟩).entry k a b
        else if f = 0 then 0 else crossCorr x (L.filters.getD (f - 1) ⟨[]⟩).entry k a b))
      · apply matOf_congr
        intro a b _ _
        simp
      · intro j hj
        rw [window_loop r c k i j f x L.filters hfl hsh (by omega) (by omega) hrc hr]
        simp only [run_ok_bind]
        rw [set2_matOf _ _ _ _ _ _ hi hj]
        congr 1
        apply matOf_congr
        intro a b _ _
        by_cases h1 : a = i ∧ b = j
        · obtain ⟨rfl, rfl⟩ := h1
          simp
        · by_cases h2 : a < i ∨ (a = i ∧ b < j)
          · have h3 : a < i ∨ (a = i ∧ b < j + 1) := by omega
            simp [h1, h2, h3]
          · have h3 : ¬ (a < i ∨ (a = i ∧ b < j + 1)) := by omega
            simp only [h1, h2, h3, if_false]
      · apply matOf_congr
        intro a b _ hb
        by_cases h2 : a < i + 1
        · have h3 : a < i ∨ (a = i ∧ b < r - k + 1) := by omega
          simp [h2, h3]
        · have h3 : ¬ (a < i ∨ (a = i ∧ b < r - k + 1)) := by omega
          simp only [h2, h3, if_false]
    · apply matOf_congr
      intro a b ha _
      simp [ha]
  · rfl

/-! ## `DenseLayer::forward` -/

theorem shape_of_ne_nil (T : Tensor) (h : T.data ≠ []) :
    T.shape = .ok (T.data.length, (T.data.getD 0 []).length) := by
  cases T with
  | mk d =>
    cases d with
    | nil => exact absurd rfl h
    | cons row d => simp [Tensor.shape, rowAt, run_pure]

theorem singleton_eq_matOf (xs : List ℚ) :
    [xs] = matOf 1 xs.length (fun _ k => xs.getD k 0) := by
  have h : (Tensor.mk [xs]).hasShape 1 xs.length := by
    simp [Tensor.hasShape]
  have := data_eq_matOf (Tensor.mk [xs]) 1 xs.length h
  simp only at this
  rw [this]
  apply matOf_congr
  intro i j hi _
  have hi0 : i = 0 := by omega
  subst hi0
  simp [Tensor.entry]

/-- The value of `forward` when no index leaves its vector: the flattened input is not
longer than the weight matrix has rows, or the layer has no output column. -/
theorem dense_forward_value (L : DenseLayer) (input : Tensor) (I O : Nat)
    (hW : L.weights.hasShape I O) (hb : L.bias.hasShape 1 O) (hne : input.data ≠ [])
    (hI : 1 ≤ I) (hlen : input.flatten.length ≤ I ∨ O = 0) :
    L.forward input = .ok ⟨matOf 1 O (fun _ j =>
      (∑ k ∈ Finset.range input.flatten.length, input.flatten.getD k 0 * L.weights.entry k j)
        + L.bias.entry 0 j)⟩ := by
  unfold DenseLayer.forward
  rw [shape_of_ne_nil input hne]
  simp only [run_ok_bind]
  conv_lhs =>
    rw [singleton_eq_matOf input.flatten, tensor_eq_matOf L.weights I O hW,
      tensor_eq_matOf L.bias 1 O hb]
  rw [dot_matOf 1 input.flatten.length I O _ _ (le_refl 1) hI hlen]
  simp only [run_ok_bind]
  rw [add_matOf]
  have hrow : matOf 1 O (fun i j =>
      (∑ k ∈ Finset.range input.flatten.length, input.flatten.getD k 0 * L.weights.entry k j)
        + L.bias.entry i j)
      = matOf 1 O (fun _ j =>
      (∑ k ∈ Finset.range input.flatten.length, input.flatten.getD k 0 * L.weights.entry k j)
        + L.bias.entry 0 j) := by
    apply matOf_congr
    intro i j hi _
    have hi0 : i = 0 := by omega
    subst hi0
    rfl
  rw [hrow]

theorem at2_row_fault (d : List (List ℚ)) (i j : Nat) (h : d.length ≤ i) :
    at2 d i j = .error .outOfBounds := by
  simp [at2, rowAt, List.getElem?_eq_none h]

/-- The fault of `forward` when the flattened input is longer than the weight matrix has
rows and the layer has an output column: `dot` reads the row `weights[input_size]`. -/
theorem dense_forward_fault (L : DenseLayer) (input : Tensor) (I O : Nat)
    (hW : L.weights.hasShape I O) (hne : input.data ≠ [])
    (hO : 1 ≤ O) (hlen : I < input.flatten.length) :
    L.forward input = .error .outOfBounds := by
  unfold DenseLayer.forward
  rw [shape_of_ne_nil input hne]
  simp only [run_ok_bind]
  by_cases hI : I = 0
  · subst hI
    have hnil : L.weights.data = [] := List.length_eq_zero.mp hW.1
    simp [Tensor.dot, hnil, rowAt]
  · rw [singleton_eq_matOf input.flatten, tensor_eq_matOf L.weights I O hW]
    have hdot : Tensor.dot ⟨matOf 1 input.flatten.length (fun _ k => input.flatten.getD k 0)⟩
        ⟨matOf I O L.weights.entry⟩ = .error .outOfBounds := by
      simp only [Tensor.dot, matOf_length, rowAt_matOf I O _ 0 (by omega),
        rowAt_matOf 1 _ _ 0 (by omega), run_ok_bind, List.length_map, List.length_range,
        replicate_eq_matOf]
      apply bind_eq_of_error
      apply forLoop_fault 1 0 _ _ _ _ (by omega) rfl
      apply forLoop_fault O 0 _ _ _ _ (by omega) rfl
      apply forLoop_fault_inv (fun _ t => ∃ h, t = matOf 1 O h) _ I _ _ _ hlen ⟨_, rfl⟩
      · intro k t hk ht
        obtain ⟨h, rfl⟩ := ht
        rw [at2_matOf 1 O h 0 0 (by omega) (by omega),
          at2_matOf 1 _ _ 0 k (by omega) (by omega),
          at2_matOf I O _ k 0 hk (by omega)]
        simp only [run_ok_bind]
        rw [set2_matOf 1 O h 0 0 _ (by omega) (by omega)]
        exact ⟨_, rfl, _, rfl⟩
      · intro t ht
        obtain ⟨h, rfl⟩ := ht
        rw [at2_matOf 1 O h 0 0 (by omega) (by omega),
          at2_matOf 1 _ _ 0 I (by omega) hlen,
          at2_row_fault (matOf I O L.weights.entry) I 0 (by rw [matOf_length])]
        rfl
    rw [hdot]
    rfl

/-! ## The abort path of `convolve` -/

theorem rowAt_ne_exit (d : List (List ℚ)) (i : Nat) : rowAt d i ≠ .error .exitFailure := by
  unfold rowAt
  split <;> simp

theorem valAt_ne_exit (row : List ℚ) (j : Nat) : valAt row j ≠ .error .exitFailure := by
  unfold valAt
  split <;> simp

theorem at2_ne_exit (d : List (List ℚ)) (i j : Nat) : at2 d i j ≠ .error .exitFailure :=
  bind_ne_fault _ _ _ (rowAt_ne_exit d i) (fun row => valAt_ne_exit row j)

theorem set2_ne_exit (d : List (List ℚ)) (i j : Nat) (v : ℚ) :
    set2 d i j v ≠ .error .exitFailure :=
  bind_ne_fault _ _ _ (rowAt_ne_exit d i)
    (fun row => bind_ne_fault _ _ _ (valAt_ne_exit row j) (fun _ => by simp [run_pure]))

theorem filterAt_ne_exit (filters : List Tensor) (f : Nat) :
    filterAt filters f ≠ .error .exitFailure := by
  unfold filterAt
  split <;> simp

/-- The loops of `convolve` never reach `exit`. -/
theorem convolve_loops_ne_exit (L : Conv2D) (input : Tensor) (m od k : Nat)
    (out : List (List ℚ)) :
    forLoop m (fun f output =>
      forLoop od (fun i output =>
        forLoop od (fun j output => do
          let sum ← forLoop k (fun ki sum =>
            forLoop k (fun kj sum => do
              let x ← at2 input.data (sizeAdd i ki) (sizeAdd j kj)
              let flt ← filterAt L.filters f
              let w ← at2 flt.data ki kj
              pure (sum + x * w)) sum) (0 : ℚ)
          set2 output i j sum) output) output) out ≠ .error .exitFailure := by
  apply forLoop_ne_fault
  intro f t
  apply forLoop_ne_fault
  intro i t
  apply forLoop_ne_fault
  intro j t
  apply bind_ne_fault
  · apply forLoop_ne_fault
    intro ki u
    apply forLoop_ne_fault
    intro kj u
    apply bind_ne_fault _ _ _ (at2_ne_exit _ _ _)
    intro a
    apply bind_ne_fault _ _ _ (filterAt_ne_exit _ _)
    intro flt
    apply bind_ne_fault _ _ _ (at2_ne_exit _ _ _)
    intro w
    simp [run_pure]
  · intro sum
    exact set2_ne_exit _ _ _ _

/-! ## The constructors -/

theorem vectorOfSize_natCast {α : Type} (n : Nat) (v : α) :
    vectorOfSize (n : Int) v = .ok (List.replicate n v) := by
  simp [vectorOfSize]

/-- The nested loop that fills a `R × C` vector of zeros with random values, starting
at call number `n0` of the generator. -/
theorem fill_loop (RAND_MAX : Nat) (rand : Nat → Nat) (R C n0 : Nat) :
    forLoop R (fun i st =>
      forLoop C (fun j (st : List (List ℚ) × Nat) => do
        let weight_data ← set2 st.1 i j (randomValue RAND_MAX (rand st.2))
        pure (weight_data, st.2 + 1)) st) (matOf R C (fun _ _ => 0), n0)
      = .ok (matOf R C (fun i j => randomValue RAND_MAX (rand (n0 + i * C + j))),
          n0 + R * C) := by
  apply forLoop_trace (fun i => (matOf R C (fun a b =>
      if a < i then randomValue RAND_MAX (rand (n0 + a * C + b)) else 0), n0 + i * C))
  · simp
  · intro i hi
    apply forLoop_trace (fun j => (matOf R C (fun a b =>
      if a < i ∨ (a = i ∧ b < j) then randomValue RAND_MAX (rand (n0 + a * C + b)) else 0),
      n0 + i * C + j))
    · refine Prod.ext ?_ rfl
      apply matOf_congr
      intro a b _ _
      simp
    · intro j hj
      simp only []
      rw [set2_matOf _ _ _ _ _ _ hi hj]
      simp only [run_ok_bind, run_pure]
      congr 2
      apply matOf_congr
      intro a b _ _
      by_cases h1 : a = i ∧ b = j
      · obtain ⟨rfl, rfl⟩ := h1
        simp
      · by_cases h2 : a < i ∨ (a = i ∧ b < j)
        · have h3 : a < i ∨ (a = i ∧ b < j + 1) := by omega
          simp [h1, h2, h3]
        · have h3 : ¬ (a < i ∨ (a = i ∧ b < j + 1)) := by omega
          simp only [h1, h2, h3, if_false]
    · refine Prod.ext ?_ ?_
      · apply matOf_congr
        intro a b _ hb
        by_cases h2 : a < i + 1
        · have h3 : a < i ∨ (a = i ∧ b < C) := by omega
          simp [h2, h3]
        · have h3 : ¬ (a < i ∨ (a = i ∧ b < C)) := by omega
          simp only [h2, h3, if_false]
      · simp only []
        ring
  · refine Prod.ext ?_ rfl
    apply matOf_congr
    intro a b ha _
    simp [ha]

/-- The layer that `DenseLayer(I, O)` builds, for sizes `I, O ≥ 0`. -/
theorem dense_new_value (RAND_MAX : Nat) (rand : Nat → Nat) (I O : Nat) :
    DenseLayer.new RAND_MAX rand (I : Int) (O : Int)
      = .ok ⟨⟨matOf I O (fun i j => randomValue RAND_MAX (rand (i * O + j)))⟩,
          ⟨matOf 1 O (fun _ _ => 0)⟩⟩ := by
  have hone : vectorOfSize (1 : Int) (List.replicate O (0 : ℚ))
      = .ok (List.replicate 1 (List.replicate O (0 : ℚ))) := vectorOfSize_natCast 1 _
  simp only [DenseLayer.new, vectorOfSize_natCast, hone, run_ok_bind, Int.toNat_ofNat,
    replicate_eq_matOf]
  rw [fill_loop]
  simp only [run_ok_bind, run_pure, Nat.zero_add]

/-- The filter number `f` that `Conv2D(m, k)` builds. -/
theorem conv_new_value (RAND_MAX : Nat) (rand : Nat → Nat) (m k : Nat) :
    Conv2D.new RAND_MAX rand (m : Int) (k : Int)
      = .ok ⟨(m : Int), (k : Int), (List.range m).map (fun f =>
          Tensor.mk (matOf k k (fun a b =>
            randomValue RAND_MAX (rand (f * (k * k) + a * k + b)))))⟩ := by
  simp only [Conv2D.new, Int.toNat_ofNat]
  apply bind_eq_of_ok _ ((List.range m).map (fun f =>
      Tensor.mk (matOf k k (fun a b =>
        randomValue RAND_MAX (rand (f * (k * k) + a * k + b))))), m * (k * k)) _ _ _ rfl
  apply forLoop_trace (fun f => ((List.range f).map (fun f =>
      Tensor.mk (matOf k k (fun a b =>
        randomValue RAND_MAX (rand (f * (k * k) + a * k + b))))), f * (k * k)))
  · simp
  · intro f _
    simp only [vectorOfSize_natCast, run_ok_bind, replicate_eq_matOf]
    rw [fill_loop]
    simp only [run_ok_bind, run_pure, List.range_succ, List.map_append, List.map_cons,
      List.map_nil]
    congr 2
    ring
  · rfl

theorem dense_new_fault (RAND_MAX : Nat) (rand : Nat → Nat) (I O : Int)
    (h : I < 0 ∨ O < 0) : DenseLayer.new RAND_MAX rand I O = .error .lengthError := by
  by_cases hO : O < 0
  · simp [DenseLayer.new, vectorOfSize, hO]
  · have hI : I < 0 := by omega
    simp [DenseLayer.new, vectorOfSize, hO, hI]

theorem conv_new_no_filter (RAND_MAX : Nat) (rand : Nat → Nat) (m k : Int) (hm : m ≤ 0) :
    Conv2D.new RAND_MAX rand m k = .ok ⟨m, k, []⟩ := by
  have h0 : m.toNat = 0 := by omega
  simp only [Conv2D.new, h0, forLoop_zero, run_ok_bind, run_pure]

theorem conv_new_fault (RAND_MAX : Nat) (rand : Nat → Nat) (m k : Int) (hm : 0 < m)
    (hk : k < 0) : Conv2D.new RAND_MAX rand m k = .error .lengthError := by
  simp only [Conv2D.new]
  apply bind_eq_of_error
  apply forLoop_fault m.toNat 0 _ _ _ _ (by omega) rfl
  simp [vectorOfSize, hk]

theorem randomValue_bounds (RAND_MAX r : Nat) (hR : 0 < RAND_MAX) (hr : r ≤ RAND_MAX) :
    0 ≤ randomValue RAND_MAX r ∧ randomValue RAND_MAX r ≤ 1 := by
  unfold randomValue
  have hpos : (0 : ℚ) < (RAND_MAX : ℚ) := by exact_mod_cast hR
  constructor
  · positivity
  · rw [div_le_one hpos]
    exact_mod_cast hr

theorem mem_matOf (R C : Nat) (f : Nat → Nat → ℚ) (row : List ℚ) (v : ℚ)
    (hrow : row ∈ matOf R C f) (hv : v ∈ row) : ∃ i j, i < R ∧ j < C ∧ v = f i j := by
  simp only [matOf, List.mem_map, List.mem_range] at hrow
  obtain ⟨i, hi, rfl⟩ := hrow
  simp only [List.mem_map, List.mem_range] at hv
  obtain ⟨j, hj, rfl⟩ := hv
  exact ⟨i, j, hi, hj, rfl⟩

/-- A generator that returns `RAND_MAX` at every call gives the weight `1`. -/
theorem dense_new_top_draw (RAND_MAX : Nat) (hR : 0 < RAND_MAX) :
    DenseLayer.new RAND_MAX (fun _ => RAND_MAX) 1 1
      = .ok ⟨Tensor.mk [[1]], Tensor.mk [[0]]⟩ := by
  have h := dense_new_value RAND_MAX (fun _ => RAND_MAX) 1 1
  simp only [Nat.cast_one] at h
  rw [h]
  have hne : (RAND_MAX : ℚ) ≠ 0 := by exact_mod_cast (Nat.pos_iff_ne_zero.mp hR)
  simp [matOf, randomValue, List.range_succ, hne]

/-- A generator that returns `RAND_MAX` at every call gives the filter entry `1`. -/
theorem conv_new_top_draw (RAND_MAX : Nat) (hR : 0 < RAND_MAX) :
    Conv2D.new RAND_MAX (fun _ => RAND_MAX) 1 1 = .ok ⟨1, 1, [Tensor.mk [[1]]]⟩ := by
  have h := conv_new_value RAND_MAX (fun _ => RAND_MAX) 1 1
  simp only [Nat.cast_one] at h
  rw [h]
  have hne : (RAND_MAX : ℚ) ≠ 0 := by exact_mod_cast (Nat.pos_iff_ne_zero.mp hR)
  simp [matOf, randomValue, List.range_succ, hne]

/-! ## Methods with the object as state -/

theorem meth_bind_of_ok {ω α β : Type} (m : Meth ω α) (f : α → Meth ω β) (s s2 : ω) (a : α)
    (hm : m s = some (.ok (a, s2))) : (m >>= f) s = f a s2 := by
  show (match m s with
    | none => none
    | some (.error e) => some (.error e)
    | some (.ok (a, s2)) => f a s2) = f a s2
  rw [hm]

theorem meth_bind_of_error {ω α β : Type} (m : Meth ω α) (f : α → Meth ω β) (s : ω)
    (e : Fault) (hm : m s = some (.error e)) : (m >>= f) s = some (.error e) := by
  show (match m s with
    | none => none
    | some (.error e) => some (.error e)
    | some (.ok (a, s2)) => f a s2) = some (.error e)
  rw [hm]

theorem meth_member_bind {ω α β : Type} (field : ω → α) (f : α → Meth ω β) (s : ω) :
    (Meth.member field >>= f) s = f (field s) s := rfl

theorem meth_run_ok {ω α : Type} (a : α) (s : ω) :
    (Meth.run (Except.ok a) : Meth ω α) s = some (.ok (a, s)) := rfl

theorem meth_run_error {ω α : Type} (e : Fault) (s : ω) :
    (Meth.run (Except.error e : Run α) : Meth ω α) s = some (.error e) := rfl

theorem meth_pure_keep {ω α : Type} (a : α) (s : ω) :
    (pure a : Meth ω α) s = Meth.run (Except.ok a) s := rfl

/-- Sequencing of two steps that leave the object as it is. -/
theorem meth_bind_keep {ω α β : Type} (m : Meth ω α) (f : α → Meth ω β) (s : ω)
    (r : Run α) (g : α → Run β) (hm : m s = Meth.run r s)
    (hf : ∀ a, f a s = Meth.run (g a) s) : (m >>= f) s = Meth.run (r >>= g) s := by
  cases r with
  | error e =>
    rw [meth_bind_of_error m f s e hm]
    rfl
  | ok a =>
    rw [meth_bind_of_ok m f s s a hm, hf a]
    rfl

/-- A counted loop whose body leaves the object as it is. -/
theorem forCountM_keep {ω σ : Type} (body : Nat → σ → Meth ω σ) (b : Nat → σ → Run σ)
    (s : ω) (h : ∀ i x, body i x s = Meth.run (b i x) s) (n i : Nat) (x : σ) :
    forCountM body n i x s
      = Meth.run ((List.range' i n).foldlM (fun x j => b j x) x) s := by
  induction n generalizing i x with
  | zero => rfl
  | succ n ih =>
    rw [List.range'_succ, List.foldlM_cons]
    exact meth_bind_keep _ _ s _ _ (h i x) (fun a => ih (i + 1) a)

/-- A loop with a condition on the object, when the condition is `i < N` on the object
`s` and the body leaves `s` as it is: with more fuel than iterations the loop returns
what the counted loop returns, and the object is `s`. -/
theorem forWhileM_keep {ω σ : Type} (cond : Nat → Meth ω Bool) (body : Nat → σ → Meth ω σ)
    (b : Nat → σ → Run σ) (s : ω) (N : Nat)
    (hcond : ∀ i, cond i s = some (.ok (decide (i < N), s)))
    (h : ∀ i x, body i x s = Meth.run (b i x) s) (fuel i : Nat) (x : σ)
    (hfuel : N - i < fuel) :
    forWhileM cond body fuel i x s
      = Meth.run ((List.range' i (N - i)).foldlM (fun x j => b j x) x) s := by
  induction fuel generalizing i x with
  | zero => omega
  | succ fuel ih =>
    show (cond i >>= fun go =>
      if go then (body i x >>= fun x => forWhileM cond body fuel (i + 1) x) else pure x) s = _
    rw [meth_bind_of_ok _ _ s s _ (hcond i)]
    by_cases hi : i < N
    · have hN : N - i = (N - (i + 1)) + 1 := by omega
      rw [hN, List.range'_succ, List.foldlM_cons]
      simp only [hi, decide_True, if_true]
      exact meth_bind_keep _ _ s _ _ (h i x) (fun a => ih (i + 1) a (by omega))
    · have hN : N - i = 0 := by omega
      rw [hN]
      simp only [hi, decide_False]
      rfl

theorem forLoop_eq_range' {σ : Type} (n : Nat) (b : Nat → σ → Run σ) (x : σ) :
    forLoop n b x = (List.range' 0 n).foldlM (fun x j => b j x) x := by
  rw [forLoop, List.range_eq_range']

/-- `DenseLayer::forward` returns what the embedding without state returns and leaves
the object as it is. -/
theorem dense_forwardM_keep (d : DenseLayer) (input : Tensor) :
    DenseLayer.forwardM input d = Meth.run (d.forward input) d := by
  unfold DenseLayer.forwardM DenseLayer.forward
  apply meth_bind_keep _ _ d _ _ rfl
  intro sh
  obtain ⟨rows, cols⟩ := sh
  show (Meth.member DenseLayer.weights >>= _) d = _
  rw [meth_member_bind]
  apply meth_bind_keep _ _ d _ _ rfl
  intro product
  show (Meth.member DenseLayer.bias >>= _) d = _
  rw [meth_member_bind]

/-- The loop condition `i < member` of `convolve`, on an object whose member is `v`. -/
theorem int_cond_keep (field : Conv2D → Int) (c : Conv2D) (i : Nat) :
    (do
      let v ← Meth.member field
      pure (decide ((i : Int) < v)) : Meth Conv2D Bool) c
      = some (.ok (decide (i < (field c).toNat), c)) := by
  rw [meth_member_bind]
  show some (Except.ok (decide ((i : Int) < field c), c)) = _
  congr 3
  apply decide_eq_decide.mpr
  omega

/-- `Conv2D::convolve` returns what the embedding without state returns and leaves the
object as it is, when the fuel exceeds `num_filters` and `kernel_size`. -/
theorem convolveM_keep (c : Conv2D) (input : Tensor) (fuel : Nat)
    (hf : c.num_filters.toNat < fuel) (hk : c.kernel_size.toNat < fuel) :
    Conv2D.convolveM fuel input c = Meth.run (c.convolve input) c := by
  unfold Conv2D.convolveM Conv2D.convolve
  apply meth_bind_keep _ _ c _ _ rfl
  intro sh
  obtain ⟨input_rows, input_cols⟩ := sh
  show (Meth.member Conv2D.kernel_size >>= _) c = _
  rw [meth_member_bind]
  by_cases hg : input_rows < toSizeT c.kernel_size ∨ input_cols < toSizeT c.kernel_size
  · simp only [hg, if_true]
    rfl
  simp only [hg, if_false]
  rw [meth_bind_of_ok _ _ c c PUnit.unit rfl]
  show (Meth.member Conv2D.kernel_size >>= _) c = Meth.run (pure PUnit.unit >>= _) c
  rw [meth_member_bind, pure_bind]
  apply meth_bind_keep _ _ c
  · rw [forLoop_eq_range']
    have h0 : c.num_filters.toNat = c.num_filters.toNat - 0 := by omega
    rw [h0]
    apply forWhileM_keep _ _ _ c c.num_filters.toNat
      (fun f => int_cond_keep Conv2D.num_filters c f) _ fuel 0 _ (by omega)
    intro f output
    rw [forLoop_eq_range']
    apply forCountM_keep
    intro i output
    rw [forLoop_eq_range']
    apply forCountM_keep
    intro j output
    apply meth_bind_keep _ _ c
    · rw [forLoop_eq_range']
      have h1 : c.kernel_size.toNat = c.kernel_size.toNat - 0 := by omega
      rw [h1]
      apply forWhileM_keep _ _ _ c c.kernel_size.toNat
        (fun ki => int_cond_keep Conv2D.kernel_size c ki) _ fuel 0 _ (by omega)
      intro ki sum
      rw [forLoop_eq_range']
      rw [h1]
      apply forWhileM_keep _ _ _ c c.kernel_size.toNat
        (fun kj => int_cond_keep Conv2D.kernel_size c kj) _ fuel 0 _ (by omega)
      intro kj sum
      apply meth_bind_keep _ _ c _ _ rfl
      intro x
      show (Meth.member Conv2D.filters >>= _) c = _
      rw [meth_member_bind]
      apply meth_bind_keep _ _ c _ _ rfl
      intro flt
      apply meth_bind_keep _ _ c _ _ rfl
      intro w
      rfl
    · intro sum
      rfl
  · intro output
    rfl

/-- A call on a part of the object, when the callee leaves the part as it is and
storing the part back gives the object again. -/
theorem meth_call_keep {ω π α : Type} (part : ω → Run π) (store : ω → π → ω)
    (callee : Meth π α) (s : ω) (p : π) (r : Run α) (hpart : part s = .ok p)
    (hcallee : callee p = Meth.run r p) (hstore : store s p = s) :
    Meth.call part store callee s = Meth.run r s := by
  unfold Meth.call
  rw [hpart]
  simp only [hcallee]
  cases r with
  | error e => rfl
  | ok a =>
    show some (Except.ok (a, store s p)) = _
    rw [hstore]
    rfl

theorem meth_call_fault {ω π α : Type} (part : ω → Run π) (store : ω → π → ω)
    (callee : Meth π α) (s : ω) (e : Fault) (hpart : part s = .error e) :
    Meth.call part store callee s = some (.error e) := by
  unfold Meth.call
  rw [hpart]

/-- The virtual call `forward` returns what the embedding without state returns and
leaves the layer as it is. -/
theorem layer_forwardM_keep (l : Layer) (input : Tensor) (fuel : Nat)
    (hfuel : l.loopBound < fuel) :
    Layer.forwardM fuel input l = Meth.run (l.forward input) l := by
  cases l with
  | dense d =>
    show Meth.call (fun _ => .ok d) (fun _ d2 => Layer.dense d2)
      (DenseLayer.forwardM input) (Layer.dense d) = _
    refine meth_call_keep _ _ _ _ d _ ?_ ?_ ?_
    · rfl
    · exact dense_forwardM_keep d input
    · rfl
  | conv2D c =>
    have hb : max c.num_filters.toNat c.kernel_size.toNat < fuel := hfuel
    have h1 : c.num_filters.toNat < fuel := lt_of_le_of_lt (le_max_left _ _) hb
    have h2 : c.kernel_size.toNat < fuel := lt_of_le_of_lt (le_max_right _ _) hb
    show Meth.call (fun _ => .ok c) (fun _ c2 => Layer.conv2D c2)
      (Conv2D.forwardM fuel input) (Layer.conv2D c) = _
    refine meth_call_keep _ _ _ _ c _ ?_ ?_ ?_
    · rfl
    · exact convolveM_keep c input fuel h1 h2
    · rfl

theorem loopBound_le_of_mem (ls : List Layer) (l : Layer) (h : l ∈ ls) :
    l.loopBound ≤ (ls.map Layer.loopBound).foldr max 0 := by
  induction ls with
  | nil => cases h
  | cons a ls ih =>
    simp only [List.map_cons, List.foldr_cons]
    rcases List.mem_cons.mp h with rfl | h2
    · exact le_max_left _ _
    · exact le_trans (ih h2) (le_max_right _ _)

theorem layerAt_append (visited rest : List Layer) (l : Layer) :
    layerAt (visited ++ l :: rest) visited.length = .ok l := by
  have h : (visited ++ l :: rest)[visited.length]? = some l := by
    rw [List.getElem?_append_right (le_refl _)]
    simp
  unfold layerAt
  rw [h]

/-- The loop over the indices of the layer vector is the fold over the vector. -/
theorem index_loop_eq_fold (visited rest : List Layer) (x : Tensor) :
    (List.range' visited.length rest.length).foldlM
        (fun x j => layerAt (visited ++ rest) j >>= fun l => l.forward x) x
      = rest.foldlM (fun output layer => layer.forward output) x := by
  induction rest generalizing visited x with
  | nil => rfl
  | cons l rest ih =>
    rw [List.length_cons, List.range'_succ, List.foldlM_cons, List.foldlM_cons,
      layerAt_append, run_ok_bind]
    congr 1
    funext t
    have h := ih (visited ++ [l]) t
    simp only [List.length_append, List.length_singleton, List.append_assoc,
      List.singleton_append] at h
    exact h

/-- `Model::forward` returns what the embedding without state returns and leaves the
model as it is, when the fuel exceeds the loop bounds of its layers. -/
theorem model_forwardM_keep (m : Model) (input : Tensor) (fuel : Nat)
    (hfuel : m.loopBound < fuel) :
    Model.forwardM fuel input m = Meth.run (m.forward input) m := by
  unfold Model.forwardM
  rw [meth_member_bind]
  rw [forCountM_keep _ (fun i x => layerAt m.layers i >>= fun l => l.forward x) m _
    m.layers.length 0 input]
  · have h := index_loop_eq_fold [] m.layers input
    simp only [List.length_nil, List.nil_append] at h
    rw [h]
    rfl
  · intro i x
    cases hl : layerAt m.layers i with
    | error e =>
      rw [meth_call_fault _ _ _ m e hl]
      show _ = Meth.run (layerAt m.layers i >>= fun l => l.forward x) m
      rw [hl]
      rfl
    | ok l =>
      have hmem : m.layers[i]? = some l := by
        unfold layerAt at hl
        split at hl
        · rename_i l2 heq
          cases hl
          exact heq
        · cases hl
      have hin : l ∈ m.layers := List.getElem?_mem hmem
      have hb : l.loopBound < fuel :=
        lt_of_le_of_lt (loopBound_le_of_mem m.layers l hin) hfuel
      have hset : (Model.mk (m.layers.set i l)) = m := by
        cases m with
        | mk ls =>
          congr 1
          apply List.ext_getElem?
          intro j
          by_cases hj : i = j
          · subst hj
            simp only at hmem
            rw [List.getElem?_set_self' , hmem]
            simp
          · rw [List.getElem?_set_ne hj]
      show _ = Meth.run (layerAt m.layers i >>= fun l => l.forward x) m
      rw [hl]
      show _ = Meth.run (l.forward x) m
      refine meth_call_keep _ _ _ m l _ ?_ ?_ ?_
      · exact hl
      · exact layer_forwardM_keep l x fuel hb
      · exact hset

/-- A dense layer applied to a `1 × 1` tensor reads the first row of its weights
only. -/
theorem dense_forward_scalar (W b : Tensor) (I O : Nat) (f : Nat → Nat → ℚ)
    (hW : W.hasShape I O) (hb : b.hasShape 1 O) (hI : 1 ≤ I) :
    (DenseLayer.mk W b).forward ⟨matOf 1 1 f⟩
      = .ok ⟨matOf 1 O (fun _ j => f 0 0 * W.entry 0 j + b.entry 0 j)⟩ := by
  have hflat : (Tensor.mk (matOf 1 1 f)).flatten = [f 0 0] := by
    simp [flatten_eq, matOf, List.range_succ]
  rw [dense_forward_value (DenseLayer.mk W b) ⟨matOf 1 1 f⟩ I O hW hb (by simp [matOf]) hI
    (Or.inl (by rw [hflat]; exact hI))]
  rw [hflat]
  congr 2
  apply matOf_congr
  intro i j _ _
  simp

theorem crossCorr_congr (x y w : Nat → Nat → ℚ) (k r i j : Nat) (hi : i + k ≤ r)
    (hj : j + k ≤ r) (h : ∀ a b, a < r → b < r → x a b = y a b) :
    crossCorr x w k i j = crossCorr y w k i j := by
  unfold crossCorr
  apply Finset.sum_congr rfl
  intro ki hki
  apply Finset.sum_congr rfl
  intro kj hkj
  have h1 := Finset.mem_range.mp hki
  have h2 := Finset.mem_range.mp hkj
  rw [h (i + ki) (j + kj) (by omega) (by omega)]

/-! ## The left block of a tensor -/

theorem leftBlock_matOf (r c : Nat) (x : Nat → Nat → ℚ) (hrc : r ≤ c) :
    (Tensor.mk (matOf r c x)).leftBlock r = ⟨matOf r r x⟩ := by
  unfold Tensor.leftBlock matOf
  simp only [List.map_map]
  congr 1
  apply List.map_congr_left
  intro i _
  simp only [Function.comp_apply, ← List.map_take, List.take_range, Nat.min_eq_left hrc]

/-! ## Statements about `Tensor` -/

/-- C1: for compatible tensors `A` (`R × N` with `R ≥ 1`, `N ≥ 1`) and `B` (`N × C`),
`A.dot(B)` returns an `R × C` tensor whose entry `[i][j]` is the sum over `k < N` of
`A[i][k] * B[k][j]`. -/
theorem dot_matrix_product (A B : Tensor) (R N C : Nat) (hR : 1 ≤ R) (hN : 1 ≤ N)
    (hA : A.hasShape R N) (hB : B.hasShape N C) :
    ∃ T, A.dot B = .ok T ∧ T.hasShape R C ∧
      ∀ i j, i < R → j < C →
        T.entry i j = ∑ k ∈ Finset.range N, A.entry i k * B.entry k j := by
  refine ⟨⟨matOf R C (fun i j => ∑ k ∈ Finset.range N, A.entry i k * B.entry k j)⟩,
    ?_, hasShape_matOf _ _ _, fun i j hi hj => entry_matOf _ _ _ i j hi hj⟩
  conv_lhs => rw [tensor_eq_matOf A R N hA, tensor_eq_matOf B N C hB]
  exact dot_matOf R N N C A.entry B.entry hR hN (Or.inl (le_refl N))

theorem dot_matrix_product_witness :
    (Tensor.mk [[1, 2, 3], [4, 5, 6]]).hasShape 2 3 ∧
    (Tensor.mk [[1, 0], [0, 1], [2, 2]]).hasShape 3 2 ∧
    ∃ T, (Tensor.mk [[1, 2, 3], [4, 5, 6]]).dot (Tensor.mk [[1, 0], [0, 1], [2, 2]]) = .ok T ∧
      T.hasShape 2 2 ∧
      ∀ i j, i < 2 → j < 2 →
        T.entry i j = ∑ k ∈ Finset.range 3,
          (Tensor.mk [[1, 2, 3], [4, 5, 6]]).entry i k
            * (Tensor.mk [[1, 0], [0, 1], [2, 2]]).entry k j :=
  ⟨by decide, by decide,
    dot_matrix_product _ _ 2 3 2 (by decide) (by decide) (by decide) (by decide)⟩

/-- C5: for tensors `A` and `B` of one shape `R × C`, `A + B` (`operator+`) returns an
`R × C` tensor whose entry `[i][j]` is `A[i][j] + B[i][j]`. -/
theorem add_entrywise (A B : Tensor) (R C : Nat) (hA : A.hasShape R C)
    (hB : B.hasShape R C) :
    ∃ T, A.add B = .ok T ∧ T.hasShape R C ∧
      ∀ i j, i < R → j < C → T.entry i j = A.entry i j + B.entry i j := by
  refine ⟨⟨matOf R C (fun i j => A.entry i j + B.entry i j)⟩,
    ?_, hasShape_matOf _ _ _, fun i j hi hj => entry_matOf _ _ _ i j hi hj⟩
  conv_lhs => rw [tensor_eq_matOf A R C hA, tensor_eq_matOf B R C hB]
  exact add_matOf R C A.entry B.entry

theorem add_entrywise_witness :
    (Tensor.mk [[1, 2, 3], [4, 5, 6]]).hasShape 2 3 ∧
    (Tensor.mk [[7, 8, 9], [1, 1, 1]]).hasShape 2 3 ∧
    ∃ T, (Tensor.mk [[1, 2, 3], [4, 5, 6]]).add (Tensor.mk [[7, 8, 9], [1, 1, 1]]) = .ok T ∧
      T.hasShape 2 3 ∧
      ∀ i j, i < 2 → j < 3 →
        T.entry i j = (Tensor.mk [[1, 2, 3], [4, 5, 6]]).entry i j
          + (Tensor.mk [[7, 8, 9], [1, 1, 1]]).entry i j :=
  ⟨by decide, by decide, add_entrywise _ _ 2 3 (by decide) (by decide)⟩

/-- C6: for an `R × C` tensor `A`, `flatten(A)` has length `R * C` and is row-major:
its element at position `i * C + j` is `A[i][j]`; it is the concatenation of the rows
in order. -/
theorem flatten_row_major (A : Tensor) (R C : Nat) (hA : A.hasShape R C) :
    A.flatten.length = R * C ∧
    (∀ i j, i < R → j < C → A.flatten[i * C + j]? = some (A.entry i j)) ∧
    A.flatten = A.data.flatten := by
  refine ⟨?_, ?_, flatten_eq A⟩
  · rw [flatten_eq, flatten_length_of_rows A.data C hA.2, hA.1]
  · intro i j hi hj
    rw [flatten_eq, flatten_getElem? A.data C hA.2 i j hj]
    exact getElem?_of_shape A R C i j hA hi hj

theorem flatten_row_major_witness :
    (Tensor.mk [[1, 2, 3], [4, 5, 6]]).hasShape 2 3 ∧
    (Tensor.mk [[1, 2, 3], [4, 5, 6]]).flatten.length = 2 * 3 ∧
    (∀ i j, i < 2 → j < 3 → (Tensor.mk [[1, 2, 3], [4, 5, 6]]).flatten[i * 3 + j]?
      = some ((Tensor.mk [[1, 2, 3], [4, 5, 6]]).entry i j)) ∧
    (Tensor.mk [[1, 2, 3], [4, 5, 6]]).flatten
      = (Tensor.mk [[1, 2, 3], [4, 5, 6]]).data.flatten :=
  ⟨by decide, flatten_row_major _ 2 3 (by decide)⟩

/-! ## Statements about `Conv2D::convolve` -/

/-- C2: for a square `n × n` input and a layer with `kernel_size = k` (`1 ≤ k ≤ n`) and
exactly one filter `F`, `convolve(input)` returns the valid-mode, stride-1, unpadded
cross-correlation: an `(n - k + 1) × (n - k + 1)` tensor whose entry `[i][j]` is the sum
over `ki, kj < k` of `input[i + ki][j + kj] * F[ki][kj]`. The row count `n` is a
`size_t` value. -/
theorem convolve_cross_correlation (input F : Tensor) (n k : Nat) (hk1 : 1 ≤ k)
    (hkn : k ≤ n) (hn : n < sizeModulus) (hin : input.hasShape n n)
    (hF : F.hasShape k k) :
    ∃ T, (Conv2D.mk 1 (k : Int) [F]).convolve input = .ok T ∧
      T.hasShape (n - k + 1) (n - k + 1) ∧
      ∀ i j, i < n - k + 1 → j < n - k + 1 →
        T.entry i j = ∑ ki ∈ Finset.range k, ∑ kj ∈ Finset.range k,
          input.entry (i + ki) (j + kj) * F.entry ki kj := by
  refine ⟨⟨matOf (n - k + 1) (n - k + 1) (fun i j => crossCorr input.entry F.entry k i j)⟩,
    ?_, hasShape_matOf _ _ _, fun i j hi hj => entry_matOf _ _ _ i j hi hj⟩
  conv_lhs => rw [tensor_eq_matOf input n n hin]
  rw [convolve_matOf (Conv2D.mk 1 (k : Int) [F]) k 1 n n input.entry rfl rfl (by simp)
    (by simpa using hF) (by omega) hkn (le_refl n) hn (by omega)]
  simp

theorem convolve_cross_correlation_witness :
    (Tensor.mk [[1, 2, 3], [4, 5, 6], [7, 8, 9]]).hasShape 3 3 ∧
    (Tensor.mk [[1, 0], [0, 1]]).hasShape 2 2 ∧
    ∃ T, (Conv2D.mk 1 ((2 : Nat) : Int) [Tensor.mk [[1, 0], [0, 1]]]).convolve
        (Tensor.mk [[1, 2, 3], [4, 5, 6], [7, 8, 9]]) = .ok T ∧
      T.hasShape (3 - 2 + 1) (3 - 2 + 1) ∧
      ∀ i j, i < 3 - 2 + 1 → j < 3 - 2 + 1 →
        T.entry i j = ∑ ki ∈ Finset.range 2, ∑ kj ∈ Finset.range 2,
          (Tensor.mk [[1, 2, 3], [4, 5, 6], [7, 8, 9]]).entry (i + ki) (j + kj)
            * (Tensor.mk [[1, 0], [0, 1]]).entry ki kj :=
  ⟨by decide, by decide,
    convolve_cross_correlation _ _ 3 2 (by decide) (by decide) (by decide) (by decide)
      (by decide)⟩

/-- C8: for a layer with `kernel_size = k ≥ 1` and filters `F_1 .. F_m` (`m ≥ 1`, written
`Fs ++ [F]`, each `k × k`) and a square `n × n` input with `n ≥ k`, `convolve(input)`
returns the same tensor as the layer that holds only the last filter `F`: every filter
overwrites the output, so the earlier filters do not matter. The row count `n` is a
`size_t` value. -/
theorem convolve_last_filter (input F : Tensor) (Fs : List Tensor) (n k : Nat)
    (hk1 : 1 ≤ k) (hkn : k ≤ n) (hn : n < sizeModulus) (hin : input.hasShape n n)
    (hFs : ∀ G ∈ Fs ++ [F], G.hasShape k k) :
    ∃ T, (Conv2D.mk ((Fs.length + 1 : Nat) : Int) (k : Int) (Fs ++ [F])).convolve input = .ok T ∧
      (Conv2D.mk 1 (k : Int) [F]).convolve input = .ok T := by
  have hF : F.hasShape k k := hFs F (by simp)
  refine ⟨⟨matOf (n - k + 1) (n - k + 1) (fun i j => crossCorr input.entry F.entry k i j)⟩,
    ?_, ?_⟩
  · conv_lhs => rw [tensor_eq_matOf input n n hin]
    rw [convolve_matOf (Conv2D.mk ((Fs.length + 1 : Nat) : Int) (k : Int) (Fs ++ [F])) k
      (Fs.length + 1) n n input.entry rfl rfl (by simp) hFs (by omega) hkn (le_refl n) hn
      (by omega)]
    simp [List.getD_eq_getElem?_getD]
  · conv_lhs => rw [tensor_eq_matOf input n n hin]
    rw [convolve_matOf (Conv2D.mk 1 (k : Int) [F]) k 1 n n input.entry rfl rfl (by simp)
      (by simpa using hF) (by omega) hkn (le_refl n) hn (by omega)]
    simp

theorem convolve_last_filter_witness :
    (Tensor.mk [[1, 2, 3], [4, 5, 6], [7, 8, 9]]).hasShape 3 3 ∧
    (∀ G ∈ [Tensor.mk [[5, 5], [5, 5]], Tensor.mk [[2, 3], [4, 5]]] ++ [Tensor.mk [[1, 0], [0, 1]]],
      G.hasShape 2 2) ∧
    ∃ T, (Conv2D.mk
        (([Tensor.mk [[5, 5], [5, 5]], Tensor.mk [[2, 3], [4, 5]]].length + 1 : Nat) : Int)
        ((2 : Nat) : Int)
        ([Tensor.mk [[5, 5], [5, 5]], Tensor.mk [[2, 3], [4, 5]]]
          ++ [Tensor.mk [[1, 0], [0, 1]]])).convolve
          (Tensor.mk [[1, 2, 3], [4, 5, 6], [7, 8, 9]]) = .ok T ∧
      (Conv2D.mk 1 ((2 : Nat) : Int) [Tensor.mk [[1, 0], [0, 1]]]).convolve
        (Tensor.mk [[1, 2, 3], [4, 5, 6], [7, 8, 9]]) = .ok T :=
  ⟨by decide, by decide,
    convolve_last_filter _ _ _ 3 2 (by decide) (by decide) (by decide) (by decide)
      (by decide)⟩

/-- C10: for `n ≥ 1`, an `n × n` input and a layer with a single `n × n` filter `F`
(`kernel_size` equal to the input size), `convolve(input)` returns a `1 × 1` tensor whose
only entry is the sum over `i, j < n` of `input[i][j] * F[i][j]`; for the `5 × 5`
checkerboard of `main` this is the sum of the 13 filter entries at the positions with
`i + j` even. The row count `n` is a `size_t` value. -/
theorem convolve_full_window (input F : Tensor) (n : Nat) (hn1 : 1 ≤ n)
    (hn : n < sizeModulus) (hin : input.hasShape n n) (hF : F.hasShape n n) :
    ∃ T, (Conv2D.mk 1 (n : Int) [F]).convolve input = .ok T ∧ T.hasShape 1 1 ∧
      T.entry 0 0 = ∑ i ∈ Finset.range n, ∑ j ∈ Finset.range n, input.entry i j * F.entry i j ∧
      (input = main_input_tensor →
        T.entry 0 0 = ∑ p ∈ evenPositions, F.entry p.1 p.2 ∧ evenPositions.card = 13) := by
  have hval : (Conv2D.mk 1 (n : Int) [F]).convolve input
      = .ok ⟨matOf 1 1 (fun i j => crossCorr input.entry F.entry n i j)⟩ := by
    conv_lhs => rw [tensor_eq_matOf input n n hin]
    rw [convolve_matOf (Conv2D.mk 1 (n : Int) [F]) n 1 n n input.entry rfl rfl (by simp)
      (by simpa using hF) hn1 (le_refl n) (le_refl n) hn (by omega)]
    simp
  have hentry : (Tensor.mk (matOf 1 1 (fun i j => crossCorr input.entry F.entry n i j))).entry 0 0
      = ∑ i ∈ Finset.range n, ∑ j ∈ Finset.range n, input.entry i j * F.entry i j := by
    rw [entry_matOf 1 1 _ 0 0 (by omega) (by omega)]
    simp [crossCorr]
  refine ⟨_, hval, hasShape_matOf 1 1 _, hentry, ?_⟩
  intro hmain
  subst hmain
  have hn5 : n = 5 := by
    have := hin.1
    simpa [main_input_tensor, main_input_data] using this.symm
  subst hn5
  refine ⟨?_, by decide⟩
  rw [hentry, evenPositions, Finset.sum_filter, Finset.sum_product]
  simp [Finset.sum_range_succ, main_input_tensor, main_input_data, Tensor.entry]

theorem convolve_full_window_witness :
    main_input_tensor.hasShape 5 5 ∧
    (Tensor.mk (List.replicate 5 [1, 2, 3, 4, 5])).hasShape 5 5 ∧
    ∃ T, (Conv2D.mk 1 ((5 : Nat) : Int) [Tensor.mk (List.replicate 5 [1, 2, 3, 4, 5])]).convolve
        main_input_tensor = .ok T ∧ T.hasShape 1 1 ∧
      T.entry 0 0 = ∑ i ∈ Finset.range 5, ∑ j ∈ Finset.range 5,
        main_input_tensor.entry i j
          * (Tensor.mk (List.replicate 5 [1, 2, 3, 4, 5])).entry i j ∧
      (main_input_tensor = main_input_tensor →
        T.entry 0 0 = ∑ p ∈ evenPositions,
          (Tensor.mk (List.replicate 5 [1, 2, 3, 4, 5])).entry p.1 p.2 ∧
        evenPositions.card = 13) :=
  ⟨by decide, by decide,
    convolve_full_window _ _ 5 (by decide) (by decide) (by decide) (by decide)⟩

/-! ## Statements about `Model` -/

/-- C4: `Model::forward` folds the input through the layers in insertion order: a model
without layers returns the input unchanged; `forward` on `m.add(l)` is `l.forward`
applied to the result of `m.forward` (a fault of `m.forward` is the result); hence for
layers added in the order `l1 .. ln` the result is `ln.forward(... l1.forward(x) ...)`. -/
theorem model_forward_fold :
    (∀ x : Tensor, (Model.mk []).forward x = .ok x) ∧
    (∀ (m : Model) (l : Layer) (x : Tensor),
      (m.add l).forward x = m.forward x >>= l.forward) ∧
    (∀ (ls : List Layer) (x : Tensor),
      (ls.foldl Model.add (Model.mk [])).forward x = applyInOrder ls x) := by
  refine ⟨fun x => rfl, ?_, ?_⟩
  · intro m l x
    simp only [Model.add, Model.forward, List.foldlM_append, List.foldlM_cons, List.foldlM_nil]
    congr 1
    funext t
    cases h : l.forward t <;> rfl
  · intro ls x
    have hlayers : ∀ (ls acc : List Layer),
        (ls.foldl Model.add (Model.mk acc)).layers = acc ++ ls := by
      intro ls
      induction ls with
      | nil => intro acc; simp
      | cons l ls ih => intro acc; simp [Model.add, ih]
    have hfold : ∀ (ls : List Layer) (x : Tensor),
        ls.foldlM (fun output layer => layer.forward output) x = applyInOrder ls x := by
      intro ls
      induction ls with
      | nil => intro x; rfl
      | cons l ls ih =>
        intro x
        simp only [List.foldlM_cons, applyInOrder]
        congr 1
        funext t
        exact ih t
    unfold Model.forward
    rw [hlayers ls [], List.nil_append]
    exact hfold ls x

/-- C7: for a layer with `kernel_size = k ≥ 0` (an `int`) and an input with at least
one row, of `r` rows and `c` columns as `shape()` reports them, `convolve` takes the
fatal-abort path (`exit(EXIT_FAILURE)`, no tensor returned) when `r < k` or `c < k`, and
only then: with `r ≥ k` and `c ≥ k` the abort path is not taken. -/
theorem convolve_abort_iff (L : Conv2D) (input : Tensor) (r c : Nat)
    (hk0 : 0 ≤ L.kernel_size) (hkmax : L.kernel_size ≤ 2147483647)
    (hshape : input.shape = .ok (r, c)) :
    ((r : Int) < L.kernel_size ∨ (c : Int) < L.kernel_size →
      L.convolve input = .error .exitFailure) ∧
    (L.kernel_size ≤ (r : Int) ∧ L.kernel_size ≤ (c : Int) →
      L.convolve input ≠ .error .exitFailure) := by
  obtain ⟨k, hk⟩ : ∃ k : Nat, L.kernel_size = (k : Int) :=
    ⟨L.kernel_size.toNat, (Int.toNat_of_nonneg hk0).symm⟩
  have hkm : k < sizeModulus := by
    have : (k : Int) ≤ 2147483647 := by rw [← hk]; exact hkmax
    unfold sizeModulus
    omega
  have hks : toSizeT (k : Int) = k := toSizeT_natCast k hkm
  constructor
  · intro h
    have hguard : r < k ∨ c < k := by
      rw [hk] at h
      omega
    simp only [Conv2D.convolve, hshape, run_ok_bind, hk, hks, hguard, if_true]
    rfl
  · intro h
    have hguard : ¬ (r < k ∨ c < k) := by
      rw [hk] at h
      omega
    simp only [Conv2D.convolve, hshape, run_ok_bind, hk, hks, hguard, if_false, pure_bind]
    apply bind_ne_fault _ _ _ (convolve_loops_ne_exit L input _ _ _ _)
    intro out
    simp [run_pure]

theorem convolve_abort_iff_witness :
    (Conv2D.mk 1 2 [Tensor.mk [[1, 0], [0, 1]]]).convolve (Tensor.mk [[1, 2, 3]])
      = .error .exitFailure ∧
    (Conv2D.mk 1 1 [Tensor.mk [[3]]]).convolve (Tensor.mk [[1, 2, 3]])
      ≠ .error .exitFailure :=
  ⟨(convolve_abort_iff (Conv2D.mk 1 2 [Tensor.mk [[1, 0], [0, 1]]]) (Tensor.mk [[1, 2, 3]]) 1 3
      (by decide) (by decide) (by simp [Tensor.shape, rowAt, run_pure])).1
      (Or.inl (by decide)),
   (convolve_abort_iff (Conv2D.mk 1 1 [Tensor.mk [[3]]]) (Tensor.mk [[1, 2, 3]]) 1 3
      (by decide) (by decide) (by simp [Tensor.shape, rowAt, run_pure])).2
      ⟨by decide, by decide⟩⟩

/-! ## Statements about `DenseLayer::forward` -/

/-- C3: for a layer with weights `W` (`input_size × output_size`) and bias `b`
(`1 × output_size`) and a non-empty input (one that holds at least one value) whose
flattened length is `input_size`, `forward(input)` returns a `1 × output_size` tensor
whose entry `[0][j]` is the sum over `k` of `flatten(input)[k] * W[k][j]`, plus
`b[0][j]`. -/
theorem dense_forward_affine (L : DenseLayer) (input : Tensor) (I O : Nat)
    (hW : L.weights.hasShape I O) (hb : L.bias.hasShape 1 O)
    (hne : input.flatten ≠ []) (hlen : input.flatten.length = I) :
    ∃ T, L.forward input = .ok T ∧ T.hasShape 1 O ∧
      ∀ j, j < O → T.entry 0 j
        = (∑ k ∈ Finset.range I, input.flatten.getD k 0 * L.weights.entry k j)
          + L.bias.entry 0 j := by
  have hdata : input.data ≠ [] := by
    intro h
    apply hne
    rw [flatten_eq, h]
    rfl
  have hI : 1 ≤ I := by
    rw [← hlen]
    exact List.length_pos.mpr hne
  refine ⟨_, dense_forward_value L input I O hW hb hdata hI (Or.inl (le_of_eq hlen)),
    hasShape_matOf 1 O _, ?_⟩
  intro j hj
  rw [entry_matOf 1 O _ 0 j (by omega) hj, hlen]

theorem dense_forward_affine_witness :
    (Tensor.mk [[1, 2], [3, 4], [5, 6], [7, 8]]).hasShape 4 2 ∧
    (Tensor.mk [[10, 20]]).hasShape 1 2 ∧
    (Tensor.mk [[1, 0], [0, 1]]).flatten ≠ [] ∧
    (Tensor.mk [[1, 0], [0, 1]]).flatten.length = 4 ∧
    ∃ T, (DenseLayer.mk (Tensor.mk [[1, 2], [3, 4], [5, 6], [7, 8]])
        (Tensor.mk [[10, 20]])).forward (Tensor.mk [[1, 0], [0, 1]]) = .ok T ∧
      T.hasShape 1 2 ∧
      ∀ j, j < 2 → T.entry 0 j
        = (∑ k ∈ Finset.range 4, (Tensor.mk [[1, 0], [0, 1]]).flatten.getD k 0
            * (Tensor.mk [[1, 2], [3, 4], [5, 6], [7, 8]]).entry k j)
          + (Tensor.mk [[10, 20]]).entry 0 j :=
  ⟨by decide, by decide, by simp [Tensor.flatten], by simp [Tensor.flatten],
    dense_forward_affine
      (DenseLayer.mk (Tensor.mk [[1, 2], [3, 4], [5, 6], [7, 8]]) (Tensor.mk [[10, 20]]))
      (Tensor.mk [[1, 0], [0, 1]]) 4 2 (by decide) (by decide) (by simp [Tensor.flatten])
      (by simp [Tensor.flatten])⟩

/-- C9, as stated, fails: a flattened input shorter than `input_size` (the `1 × 1`
tensor fed to a layer with `9 × 1` weights, as in the pipeline of `main`) makes
`forward` return a tensor, and so does a longer input when the layer has no output
column. -/
theorem dense_forward_mismatch_returns :
    ((Tensor.mk (List.replicate 9 [1])).hasShape 9 1 ∧ (Tensor.mk [[0]]).hasShape 1 1 ∧
      (Tensor.mk [[2]]).flatten ≠ [] ∧ (Tensor.mk [[2]]).flatten.length ≠ 9 ∧
      (DenseLayer.mk (Tensor.mk (List.replicate 9 [1])) (Tensor.mk [[0]])).forward
        (Tensor.mk [[2]]) = .ok (Tensor.mk [[2]])) ∧
    ((Tensor.mk [[], []]).hasShape 2 0 ∧ (Tensor.mk [[]]).hasShape 1 0 ∧
      (Tensor.mk [[1, 2, 3]]).flatten ≠ [] ∧ (Tensor.mk [[1, 2, 3]]).flatten.length ≠ 2 ∧
      (DenseLayer.mk (Tensor.mk [[], []]) (Tensor.mk [[]])).forward
        (Tensor.mk [[1, 2, 3]]) = .ok (Tensor.mk [[]])) := by
  refine ⟨⟨by decide, by decide, by simp [Tensor.flatten], by simp [Tensor.flatten], ?_⟩,
    ⟨by decide, by decide, by simp [Tensor.flatten], by simp [Tensor.flatten], ?_⟩⟩
  · rw [dense_forward_value _ _ 9 1 (by decide) (by decide) (by simp) (by decide)
      (Or.inl (by simp [Tensor.flatten]))]
    simp [matOf, Tensor.flatten, Tensor.entry, Finset.sum_range_succ, List.range_succ]
  · rw [dense_forward_value _ _ 2 0 (by decide) (by decide) (by simp) (by decide)
      (Or.inr rfl)]
    simp [matOf]

/-- C9, amended: for a layer with weights `input_size × output_size`, `output_size ≥ 1`,
and an input whose flattened length is greater than `input_size`, `forward(input)` makes
an out-of-bounds access (the index-error result) and returns no tensor. -/
theorem dense_forward_long_input_fault (L : DenseLayer) (input : Tensor) (I O : Nat)
    (hW : L.weights.hasShape I O) (hO : 1 ≤ O) (hlen : I < input.flatten.length) :
    L.forward input = .error .outOfBounds := by
  have hdata : input.data ≠ [] := by
    intro h
    rw [flatten_eq, h] at hlen
    simp at hlen
  exact dense_forward_fault L input I O hW hdata hO hlen

theorem dense_forward_long_input_fault_witness :
    (Tensor.mk [[1, 2], [3, 4]]).hasShape 2 2 ∧
    2 < (Tensor.mk [[1, 0, 1]]).flatten.length ∧
    (DenseLayer.mk (Tensor.mk [[1, 2], [3, 4]]) (Tensor.mk [[0, 0]])).forward
      (Tensor.mk [[1, 0, 1]]) = .error .outOfBounds :=
  ⟨by decide, by simp [Tensor.flatten],
    dense_forward_long_input_fault
      (DenseLayer.mk (Tensor.mk [[1, 2], [3, 4]]) (Tensor.mk [[0, 0]]))
      (Tensor.mk [[1, 0, 1]]) 2 2 (by decide) (by decide) (by simp [Tensor.flatten])⟩

/-! ## Statements about the constructors -/

/-- C11, as stated, fails: the generator may return `RAND_MAX` itself, and then the
weight entry and the filter entry are `RAND_MAX / RAND_MAX = 1`, which is not below
`1`. Shown for the smallest `RAND_MAX` the C standard allows and for `2 ^ 31 - 1`. -/
theorem random_parameter_reaches_one :
    (∀ n : Nat, (fun _ : Nat => 32767) n ≤ 32767) ∧
    DenseLayer.new 32767 (fun _ => 32767) 1 1
      = .ok ⟨Tensor.mk [[1]], Tensor.mk [[0]]⟩ ∧
    Conv2D.new 32767 (fun _ => 32767) 1 1 = .ok ⟨1, 1, [Tensor.mk [[1]]]⟩ ∧
    (∀ n : Nat, (fun _ : Nat => 2147483647) n ≤ 2147483647) ∧
    DenseLayer.new 2147483647 (fun _ => 2147483647) 1 1
      = .ok ⟨Tensor.mk [[1]], Tensor.mk [[0]]⟩ ∧
    Conv2D.new 2147483647 (fun _ => 2147483647) 1 1 = .ok ⟨1, 1, [Tensor.mk [[1]]]⟩ ∧
    ¬ ((1 : ℚ) < 1) := by
  refine ⟨fun _ => le_refl _, ?_, ?_, fun _ => le_refl _, ?_, ?_, lt_irrefl 1⟩
  · exact dense_new_top_draw 32767 (by decide)
  · exact conv_new_top_draw 32767 (by decide)
  · exact dense_new_top_draw 2147483647 (by decide)
  · exact conv_new_top_draw 2147483647 (by decide)

/-- C11, amended: when every value `r` returned by the generator satisfies
`0 ≤ r ≤ RAND_MAX`, every weight entry of a constructed `DenseLayer` and every filter
entry of a constructed `Conv2D` (computed as `r / RAND_MAX`) lies in the closed
interval `[0, 1]`. -/
theorem random_parameters_unit_interval (RAND_MAX : Nat) (rand : Nat → Nat)
    (hR : 0 < RAND_MAX) (hrand : ∀ n, rand n ≤ RAND_MAX) :
    (∀ (I O : Int) (L : DenseLayer), DenseLayer.new RAND_MAX rand I O = .ok L →
      ∀ row ∈ L.weights.data, ∀ v ∈ row, 0 ≤ v ∧ v ≤ 1) ∧
    (∀ (m k : Int) (L : Conv2D), Conv2D.new RAND_MAX rand m k = .ok L →
      ∀ F ∈ L.filters, ∀ row ∈ F.data, ∀ v ∈ row, 0 ≤ v ∧ v ≤ 1) := by
  constructor
  · intro I O L hL row hrow v hv
    by_cases hneg : I < 0 ∨ O < 0
    · rw [dense_new_fault RAND_MAX rand I O hneg] at hL
      cases hL
    · obtain ⟨I', rfl⟩ : ∃ n : Nat, I = (n : Int) := ⟨I.toNat, by omega⟩
      obtain ⟨O', rfl⟩ : ∃ n : Nat, O = (n : Int) := ⟨O.toNat, by omega⟩
      rw [dense_new_value] at hL
      cases hL
      obtain ⟨i, j, _, _, rfl⟩ := mem_matOf _ _ _ row v hrow hv
      exact randomValue_bounds RAND_MAX _ hR (hrand _)
  · intro m k L hL F hF row hrow v hv
    by_cases hm : m ≤ 0
    · rw [conv_new_no_filter RAND_MAX rand m k hm] at hL
      cases hL
      simp at hF
    · by_cases hk : k < 0
      · rw [conv_new_fault RAND_MAX rand m k (by omega) hk] at hL
        cases hL
      · obtain ⟨m', rfl⟩ : ∃ n : Nat, m = (n : Int) := ⟨m.toNat, by omega⟩
        obtain ⟨k', rfl⟩ : ∃ n : Nat, k = (n : Int) := ⟨k.toNat, by omega⟩
        rw [conv_new_value] at hL
        cases hL
        simp only [List.mem_map, List.mem_range] at hF
        obtain ⟨f, _, rfl⟩ := hF
        obtain ⟨i, j, _, _, rfl⟩ := mem_matOf _ _ _ row v hrow hv
        exact randomValue_bounds RAND_MAX _ hR (hrand _)

theorem random_parameters_unit_interval_witness :
    (0 < 32767 ∧ ∀ n : Nat, (fun n : Nat => n % 32768) n ≤ 32767) ∧
    (∀ (I O : Int) (L : DenseLayer),
      DenseLayer.new 32767 (fun n => n % 32768) I O = .ok L →
      ∀ row ∈ L.weights.data, ∀ v ∈ row, 0 ≤ v ∧ v ≤ 1) ∧
    (∀ (m k : Int) (L : Conv2D), Conv2D.new 32767 (fun n => n % 32768) m k = .ok L →
      ∀ F ∈ L.filters, ∀ row ∈ F.data, ∀ v ∈ row, 0 ≤ v ∧ v ≤ 1) :=
  ⟨⟨by decide, fun n => by simp only []; omega⟩,
    random_parameters_unit_interval 32767 (fun n => n % 32768) (by decide)
      (fun n => by simp only []; omega)⟩

/-- C12, as stated, fails: the bias that the constructor builds is not made of random
draws. With a generator whose every draw gives the value `1`, the bias entry is `0`. -/
theorem dense_bias_not_random :
    ∃ L, DenseLayer.new 32767 (fun _ => 32767) 1 1 = .ok L ∧
      L.weights.entry 0 0 = 1 ∧ L.bias.hasShape 1 1 ∧
      ∀ n : Nat, L.bias.entry 0 0 ≠ randomValue 32767 ((fun _ : Nat => 32767) n) := by
  have h := dense_new_value 32767 (fun _ => 32767) 1 1
  simp only [Nat.cast_one] at h
  refine ⟨_, h, ?_, hasShape_matOf 1 1 _, ?_⟩
  · rw [entry_matOf 1 1 _ 0 0 (by omega) (by omega)]
    simp [randomValue]
  · intro n
    rw [entry_matOf 1 1 _ 0 0 (by omega) (by omega)]
    simp [randomValue]

/-- C12, amended: `DenseLayer(input_size, output_size)` with sizes `≥ 0` sets the
`input_size × output_size` weight matrix from the random generator (entry `[i][j]` is
draw number `i * output_size + j`, divided by `RAND_MAX`); the `1 × output_size` bias
row vector is filled with zeros and is the same for every generator. -/
theorem dense_new_parameters (RAND_MAX : Nat) (rand : Nat → Nat) (I O : Nat) :
    ∃ L, DenseLayer.new RAND_MAX rand (I : Int) (O : Int) = .ok L ∧
      L.weights.hasShape I O ∧
      (∀ i j, i < I → j < O →
        L.weights.entry i j = randomValue RAND_MAX (rand (i * O + j))) ∧
      L.bias.hasShape 1 O ∧
      (∀ j, j < O → L.bias.entry 0 j = 0) ∧
      (∀ (rand2 : Nat → Nat) (L2 : DenseLayer),
        DenseLayer.new RAND_MAX rand2 (I : Int) (O : Int) = .ok L2 → L2.bias = L.bias) := by
  refine ⟨_, dense_new_value RAND_MAX rand I O, hasShape_matOf I O _,
    fun i j hi hj => entry_matOf I O _ i j hi hj, hasShape_matOf 1 O _,
    fun j hj => entry_matOf 1 O _ 0 j (by omega) hj, ?_⟩
  intro rand2 L2 hL2
  rw [dense_new_value] at hL2
  cases hL2
  rfl

/-! ## Statements about state, shape and the pipeline of `main` -/

/-- C13: no call of `forward` changes a parameter. With the method bodies run on the
object as state (members read from the object at every use, loop conditions on members
evaluated before every iteration): `Model::forward` returns, leaves the layer sequence
and every layer in it as they were, and gives the tensor of `Model.forward`; the same
holds for `forward` of every layer (weights, bias, filters and sizes stay); and two calls
one after the other on the same input return the same tensor. The fuel only has to
exceed `num_filters` and `kernel_size` of the convolution layers. -/
theorem forward_leaves_parameters (m : Model) (x : Tensor) (fuel : Nat)
    (hfuel : m.loopBound < fuel) :
    Model.forwardM fuel x m = some (Except.map (fun t => (t, m)) (m.forward x)) ∧
    (∀ (l : Layer) (y : Tensor), l.loopBound < fuel →
      Layer.forwardM fuel y l = some (Except.map (fun t => (t, l)) (l.forward y))) ∧
    (do
      let first ← Model.forwardM fuel x
      let second ← Model.forwardM fuel x
      pure (first, second) : Meth Model (Tensor × Tensor)) m
      = some (Except.map (fun t => ((t, t), m)) (m.forward x)) := by
  have hm := model_forwardM_keep m x fuel hfuel
  refine ⟨hm, fun l y hl => layer_forwardM_keep l y fuel hl, ?_⟩
  cases hfw : m.forward x with
  | error e =>
    rw [hfw] at hm
    exact meth_bind_of_error _ _ m e hm
  | ok t =>
    rw [hfw] at hm
    rw [meth_bind_of_ok _ _ m m t hm, meth_bind_of_ok _ _ m m t hm]
    rfl

theorem forward_leaves_parameters_witness :
    (Model.mk [.conv2D ⟨2, 2, [Tensor.mk [[1, 0], [0, 1]], Tensor.mk [[0, 1], [1, 0]]]⟩,
      .dense ⟨Tensor.mk [[1], [2], [3], [4]], Tensor.mk [[0]]⟩]).loopBound < 3 ∧
    Model.forwardM 3 (Tensor.mk [[1, 2, 3], [4, 5, 6], [7, 8, 9]])
      (Model.mk [.conv2D ⟨2, 2, [Tensor.mk [[1, 0], [0, 1]], Tensor.mk [[0, 1], [1, 0]]]⟩,
        .dense ⟨Tensor.mk [[1], [2], [3], [4]], Tensor.mk [[0]]⟩])
      = some (Except.map
          (fun t => (t, Model.mk
            [.conv2D ⟨2, 2, [Tensor.mk [[1, 0], [0, 1]], Tensor.mk [[0, 1], [1, 0]]]⟩,
              .dense ⟨Tensor.mk [[1], [2], [3], [4]], Tensor.mk [[0]]⟩]))
          ((Model.mk
            [.conv2D ⟨2, 2, [Tensor.mk [[1, 0], [0, 1]], Tensor.mk [[0, 1], [1, 0]]]⟩,
              .dense ⟨Tensor.mk [[1], [2], [3], [4]], Tensor.mk [[0]]⟩]).forward
            (Tensor.mk [[1, 2, 3], [4, 5, 6], [7, 8, 9]]))) :=
  ⟨by decide,
    (forward_leaves_parameters
      (Model.mk [.conv2D ⟨2, 2, [Tensor.mk [[1, 0], [0, 1]], Tensor.mk [[0, 1], [1, 0]]]⟩,
        .dense ⟨Tensor.mk [[1], [2], [3], [4]], Tensor.mk [[0]]⟩])
      (Tensor.mk [[1, 2, 3], [4, 5, 6], [7, 8, 9]]) 3 (by decide)).1⟩

/-- C14: for a tensor with at least one row, `shape()` returns the number of rows and
the length of the first row; for a tensor without rows the read of the first row is out
of bounds. -/
theorem shape_first_row (T : Tensor) :
    T.shape = match T.data with
      | [] => .error .outOfBounds
      | row :: _ => .ok (T.data.length, row.length) := by
  cases T with
  | mk d =>
    cases d with
    | nil => rfl
    | cons row d => simp [Tensor.shape, rowAt, run_pure]

/-- C18: `DenseLayer::forward` depends on its input only through the flattened
sequence: two inputs with at least one row each and the same flattened sequence give
the same result. -/
theorem dense_forward_flatten_only (L : DenseLayer) (X Y : Tensor) (hX : X.data ≠ [])
    (hY : Y.data ≠ []) (h : X.flatten = Y.flatten) : L.forward X = L.forward Y := by
  unfold DenseLayer.forward
  rw [shape_of_ne_nil X hX, shape_of_ne_nil Y hY, h]
  rfl

theorem dense_forward_flatten_only_witness :
    (Tensor.mk [[1, 2, 3, 4, 5, 6, 7, 8, 9]]).data ≠ [] ∧
    (Tensor.mk [[1, 2, 3], [4, 5, 6], [7, 8, 9]]).data ≠ [] ∧
    (Tensor.mk [[1, 2, 3, 4, 5, 6, 7, 8, 9]]).flatten
      = (Tensor.mk [[1, 2, 3], [4, 5, 6], [7, 8, 9]]).flatten ∧
    (DenseLayer.mk (Tensor.mk (List.replicate 9 [1])) (Tensor.mk [[0]])).forward
        (Tensor.mk [[1, 2, 3, 4, 5, 6, 7, 8, 9]])
      = (DenseLayer.mk (Tensor.mk (List.replicate 9 [1])) (Tensor.mk [[0]])).forward
        (Tensor.mk [[1, 2, 3], [4, 5, 6], [7, 8, 9]]) :=
  ⟨by simp, by simp, by simp [Tensor.flatten],
    dense_forward_flatten_only _ _ _ (by simp) (by simp) (by simp [Tensor.flatten])⟩

/-- C15: the pipeline of `main` runs without an out-of-bounds access and returns a
`1 × 5` tensor. For a `5 × 5` input `X`, a `5 × 5` filter `F`, `9 × 1` weights `W1` and
`1 × 5` weights `W2`, with zero biases, the model built by adding `Conv2D(1, 5)`,
`DenseLayer(9, 1)` and `DenseLayer(1, 5)` returns the tensor with entry `[0][j]` equal to
`(Σ X[i][k] * F[i][k]) * W1[0][0] * W2[0][j]`. -/
theorem main_pipeline (X F W1 W2 : Tensor) (hX : X.hasShape 5 5) (hF : F.hasShape 5 5)
    (hW1 : W1.hasShape 9 1) (hW2 : W2.hasShape 1 5) :
    ∃ T, ((((Model.mk []).add (.conv2D ⟨1, 5, [F]⟩)).add
        (.dense ⟨W1, Tensor.mk [[0]]⟩)).add
        (.dense ⟨W2, Tensor.mk [[0, 0, 0, 0, 0]]⟩)).forward X = .ok T ∧
      T.hasShape 1 5 ∧
      ∀ j, j < 5 → T.entry 0 j
        = (∑ i ∈ Finset.range 5, ∑ k ∈ Finset.range 5, X.entry i k * F.entry i k)
          * W1.entry 0 0 * W2.entry 0 j := by
  have hconv : (Conv2D.mk 1 5 [F]).convolve X
      = .ok ⟨matOf 1 1 (fun i j => crossCorr X.entry F.entry 5 i j)⟩ := by
    conv_lhs => rw [tensor_eq_matOf X 5 5 hX]
    rw [convolve_matOf (Conv2D.mk 1 5 [F]) 5 1 5 5 X.entry rfl rfl (by simp)
      (by simpa using hF) (by omega) (le_refl 5) (le_refl 5) (by decide) (by decide)]
    simp
  have hb1 : (Tensor.mk [[0]]).hasShape 1 1 := by decide
  have hb2 : (Tensor.mk [[0, 0, 0, 0, 0]]).hasShape 1 5 := by decide
  refine ⟨⟨matOf 1 5 (fun _ j =>
    (crossCorr X.entry F.entry 5 0 0 * W1.entry 0 0 + (Tensor.mk [[0]]).entry 0 0)
      * W2.entry 0 j + (Tensor.mk [[0, 0, 0, 0, 0]]).entry 0 j)⟩,
    ?_, hasShape_matOf 1 5 _, ?_⟩
  · simp only [Model.add, Model.forward, List.nil_append, List.cons_append,
      List.foldlM_cons, List.foldlM_nil, Layer.forward, Conv2D.forward, hconv, run_ok_bind,
      dense_forward_scalar W1 _ 9 1 _ hW1 hb1 (by omega),
      dense_forward_scalar W2 _ 1 5 _ hW2 hb2 (by omega)]
    rfl
  · intro j hj
    rw [entry_matOf 1 5 _ 0 j (by omega) hj]
    have hj5 : j = 0 ∨ j = 1 ∨ j = 2 ∨ j = 3 ∨ j = 4 := by omega
    rcases hj5 with rfl | rfl | rfl | rfl | rfl <;>
      simp [crossCorr, Tensor.entry]

theorem main_pipeline_witness :
    main_input_tensor.hasShape 5 5 ∧
    (Tensor.mk (List.replicate 5 [1, 2, 3, 4, 5])).hasShape 5 5 ∧
    (Tensor.mk (List.replicate 9 [2])).hasShape 9 1 ∧
    (Tensor.mk [[1, 2, 3, 4, 5]]).hasShape 1 5 ∧
    ∃ T, ((((Model.mk []).add
        (.conv2D ⟨1, 5, [Tensor.mk (List.replicate 5 [1, 2, 3, 4, 5])]⟩)).add
        (.dense ⟨Tensor.mk (List.replicate 9 [2]), Tensor.mk [[0]]⟩)).add
        (.dense ⟨Tensor.mk [[1, 2, 3, 4, 5]], Tensor.mk [[0, 0, 0, 0, 0]]⟩)).forward
          main_input_tensor = .ok T ∧
      T.hasShape 1 5 ∧
      ∀ j, j < 5 → T.entry 0 j
        = (∑ i ∈ Finset.range 5, ∑ k ∈ Finset.range 5,
            main_input_tensor.entry i k
              * (Tensor.mk (List.replicate 5 [1, 2, 3, 4, 5])).entry i k)
          * (Tensor.mk (List.replicate 9 [2])).entry 0 0
          * (Tensor.mk [[1, 2, 3, 4, 5]]).entry 0 j :=
  ⟨by decide, by decide, by decide, by decide,
    main_pipeline _ _ _ _ (by decide) (by decide) (by decide) (by decide)⟩

/-- C16 fails on the code: a `3 × 2` input passes the size check of a layer with
`kernel_size = 1` and one `1 × 1` filter (`3 ≥ 1` and `2 ≥ 1`), and `convolve` still
reads `input[0][2]`, outside the row: the column index runs up to the output size, which
is taken from the row count. -/
theorem convolve_tall_input_fault :
    (Tensor.mk [[1, 2], [3, 4], [5, 6]]).hasShape 3 2 ∧
    (Tensor.mk [[1]]).hasShape 1 1 ∧
    (Conv2D.mk 1 1 [Tensor.mk [[1]]]).convolve (Tensor.mk [[1, 2], [3, 4], [5, 6]])
      = .error .outOfBounds := by
  refine ⟨by decide, by decide, ?_⟩
  rfl

/-- C17: the output size of `convolve` comes from the row count only. For an input of
`r` rows and `c` columns with `c ≥ r ≥ k ≥ 1` and a layer with at least one filter,
`convolve(input)` returns an `(r - k + 1) × (r - k + 1)` tensor, the same as on the left
`r × r` block of the input; the columns with index `≥ r` do not influence the result. The
row count `r` is a `size_t` value. -/
theorem convolve_left_block (L : Conv2D) (input : Tensor) (r c k m : Nat) (hk1 : 1 ≤ k)
    (hkr : k ≤ r) (hrc : r ≤ c) (hr : r < sizeModulus) (hin : input.hasShape r c)
    (hk : L.kernel_size = (k : Int)) (hm : L.num_filters = (m : Int)) (hm1 : 1 ≤ m)
    (hlen : L.filters.length = m) (hF : ∀ F ∈ L.filters, F.hasShape k k) :
    ∃ T, L.convolve input = .ok T ∧ T.hasShape (r - k + 1) (r - k + 1) ∧
      (input.leftBlock r).hasShape r r ∧
      L.convolve (input.leftBlock r) = .ok T ∧
      ∀ input2 : Tensor, input2.hasShape r c →
        (∀ i j, i < r → j < r → input2.entry i j = input.entry i j) →
        L.convolve input2 = .ok T := by
  have hm0 : ¬ m = 0 := by omega
  have hval : ∀ (c2 : Nat) (x : Nat → Nat → ℚ), r ≤ c2 →
      L.convolve ⟨matOf r c2 x⟩ = .ok ⟨matOf (r - k + 1) (r - k + 1) (fun i j =>
        crossCorr x (L.filters.getD (m - 1) ⟨[]⟩).entry k i j)⟩ := by
    intro c2 x hc2
    rw [convolve_matOf L k m r c2 x hk hm (le_of_eq hlen.symm) hF (by omega) hkr hc2 hr
      (by omega)]
    simp only [hm0, if_false]
  have hblock : input.leftBlock r = ⟨matOf r r input.entry⟩ := by
    conv_lhs => rw [tensor_eq_matOf input r c hin]
    exact leftBlock_matOf r c input.entry hrc
  refine ⟨⟨matOf (r - k + 1) (r - k + 1) (fun i j =>
    crossCorr input.entry (L.filters.getD (m - 1) ⟨[]⟩).entry k i j)⟩,
    ?_, hasShape_matOf _ _ _, ?_, ?_, ?_⟩
  · conv_lhs => rw [tensor_eq_matOf input r c hin]
    exact hval c input.entry hrc
  · rw [hblock]
    exact hasShape_matOf r r _
  · rw [hblock]
    exact hval r input.entry (le_refl r)
  · intro input2 hin2 hagree
    conv_lhs => rw [tensor_eq_matOf input2 r c hin2]
    rw [hval c input2.entry hrc]
    congr 2
    apply matOf_congr
    intro i j hi hj
    exact crossCorr_congr _ _ _ k r i j (by omega) (by omega) hagree

theorem convolve_left_block_witness :
    (Tensor.mk [[1, 2, 7], [3, 4, 9]]).hasShape 2 3 ∧
    (∀ F ∈ [Tensor.mk [[2]]], F.hasShape 1 1) ∧
    ∃ T, (Conv2D.mk 1 1 [Tensor.mk [[2]]]).convolve (Tensor.mk [[1, 2, 7], [3, 4, 9]])
        = .ok T ∧
      T.hasShape (2 - 1 + 1) (2 - 1 + 1) ∧
      ((Tensor.mk [[1, 2, 7], [3, 4, 9]]).leftBlock 2).hasShape 2 2 ∧
      (Conv2D.mk 1 1 [Tensor.mk [[2]]]).convolve
        ((Tensor.mk [[1, 2, 7], [3, 4, 9]]).leftBlock 2) = .ok T ∧
      ∀ input2 : Tensor, input2.hasShape 2 3 →
        (∀ i j, i < 2 → j < 2 →
          input2.entry i j = (Tensor.mk [[1, 2, 7], [3, 4, 9]]).entry i j) →
        (Conv2D.mk 1 1 [Tensor.mk [[2]]]).convolve input2 = .ok T :=
  ⟨by decide, by decide,
    convolve_left_block (Conv2D.mk 1 1 [Tensor.mk [[2]]]) (Tensor.mk [[1, 2, 7], [3, 4, 9]])
      2 3 1 1 (by decide) (by decide) (by decide) (by decide) (by decide) rfl rfl (by decide)
      rfl (by decide)⟩

/-- C19: without filters nothing overwrites the zero-filled output. For a layer
constructed with `num_filters = 0` and `kernel_size = k ≥ 0` and an input for which
`shape()` reports `r ≥ k` rows and `c ≥ k` columns, `convolve(input)` returns the
`(r - k + 1) × (r - k + 1)` tensor of zeros, whatever the values of the input. The row
count `r` is below the largest `size_t` value. -/
theorem convolve_no_filters (RAND_MAX : Nat) (rand : Nat → Nat) (k : Nat) (L : Conv2D)
    (input : Tensor) (r c : Nat) (hnew : Conv2D.new RAND_MAX rand 0 (k : Int) = .ok L)
    (hshape : input.shape = .ok (r, c)) (hkr : k ≤ r) (hkc : k ≤ c)
    (hr : r + 1 < sizeModulus) :
    L.convolve input
      = .ok ⟨List.replicate (r - k + 1) (List.replicate (r - k + 1) (0 : ℚ))⟩ := by
  rw [conv_new_no_filter RAND_MAX rand 0 (k : Int) (le_refl 0)] at hnew
  cases hnew
  have hks : toSizeT (k : Int) = k := toSizeT_natCast k (by omega)
  have hguard : ¬ (r < k ∨ c < k) := by omega
  simp only [Conv2D.convolve, hshape, run_ok_bind, hks, hguard, if_false, pure_bind,
    sizeSub_of_le r k hkr (by omega), sizeAdd_of_lt (r - k) 1 (by omega), Int.toNat_zero,
    forLoop_zero, run_pure]

theorem convolve_no_filters_witness :
    Conv2D.new 32767 (fun n => n % 32768) 0 ((2 : Nat) : Int) = .ok ⟨0, 2, []⟩ ∧
    (Tensor.mk [[1, 2, 3], [4, 5, 6], [7, 8, 9]]).shape = .ok (3, 3) ∧
    (Conv2D.mk 0 2 []).convolve (Tensor.mk [[1, 2, 3], [4, 5, 6], [7, 8, 9]])
      = .ok ⟨List.replicate (3 - 2 + 1) (List.replicate (3 - 2 + 1) (0 : ℚ))⟩ :=
  ⟨conv_new_no_filter _ _ _ _ (le_refl 0), by simp [Tensor.shape, rowAt, run_pure],
    convolve_no_filters 32767 (fun n => n % 32768) 2 ⟨0, 2, []⟩
      (Tensor.mk [[1, 2, 3], [4, 5, 6], [7, 8, 9]]) 3 3
      (conv_new_no_filter _ _ _ _ (le_refl 0)) (by simp [Tensor.shape, rowAt, run_pure])
      (by decide) (by decide) (by decide)⟩

end P4
